import Mathlib

/-!
Verification of the marq structural markdown diff engine.

The definitions below are a shallow embedding of `src/ast.rs` and
`src/diff.rs`: the Block/Inline document tree, the plain-text flattener
`inline_text`, the LCS sequence aligner `diff_sequences`, the word-level
inline differ `diff_inlines`, the code-block word differ, the whole-block
wrapping rules `wrap_block_removed` / `wrap_block_added`, and the paired
(inline-aware) block diff loop of `diff_markdown_inline`.

The markdown text parser (pulldown-cmark) is an external collaborator of
the diff engine; functions are therefore embedded at the block-tree level
(between the external parse and render steps), which is exactly the data
the diff engine operates on.
-/

namespace Marq

/-- Table column alignment, from `src/ast.rs` (enum Alignment). -/
inductive Alignment where
  | none
  | left
  | center
  | right
deriving DecidableEq, Repr

/-- Span-level nodes, from `src/ast.rs` (enum Inline). -/
inductive Inline where
  | text (s : String)
  | code (s : String)
  | emphasis (children : List Inline)
  | strong (children : List Inline)
  | strikethrough (children : List Inline)
  | link (url : String) (title : String) (content : List Inline)
  | image (url : String) (title : String) (alt : List Inline)
  | softBreak
  | hardBreak
  | html (s : String)
deriving Repr

/-- Block-level nodes, from `src/ast.rs` (enum Block). -/
inductive Block where
  | paragraph (inlines : List Inline)
  | heading (level : Nat) (content : List Inline)
  | blockQuote (blocks : List Block)
  | codeBlock (language : Option String) (code : String)
  | list (ordered : Bool) (start : Option Nat) (items : List (List Block))
  | thematicBreak
  | table (alignments : List Alignment) (header : List (List Inline))
      (rows : List (List (List Inline)))
  | htmlBlock (s : String)
deriving Repr

instance : Inhabited Block := ⟨Block.thematicBreak⟩

instance : Inhabited Inline := ⟨Inline.softBreak⟩

mutual

/-- Structural (derived `PartialEq`-style) equality test on inlines. -/
def inlineBeq : Inline → Inline → Bool
  | .text a, .text b => a = b
  | .code a, .code b => a = b
  | .emphasis a, .emphasis b => inlineListBeq a b
  | .strong a, .strong b => inlineListBeq a b
  | .strikethrough a, .strikethrough b => inlineListBeq a b
  | .link u1 t1 c1, .link u2 t2 c2 => u1 = u2 && t1 = t2 && inlineListBeq c1 c2
  | .image u1 t1 a1, .image u2 t2 a2 => u1 = u2 && t1 = t2 && inlineListBeq a1 a2
  | .softBreak, .softBreak => true
  | .hardBreak, .hardBreak => true
  | .html a, .html b => a = b
  | _, _ => false

/-- Elementwise equality test on inline lists. -/
def inlineListBeq : List Inline → List Inline → Bool
  | [], [] => true
  | x :: xs, y :: ys => inlineBeq x y && inlineListBeq xs ys
  | _, _ => false

end

mutual

theorem inlineBeq_iff : ∀ (a b : Inline), inlineBeq a b = true ↔ a = b
  | .text s, b => by cases b <;> simp [inlineBeq]
  | .code s, b => by cases b <;> simp [inlineBeq]
  | .emphasis l, b => by
      cases b <;> simp [inlineBeq]
      exact inlineListBeq_iff l _
  | .strong l, b => by
      cases b <;> simp [inlineBeq]
      exact inlineListBeq_iff l _
  | .strikethrough l, b => by
      cases b <;> simp [inlineBeq]
      exact inlineListBeq_iff l _
  | .link u t c, b => by
      cases b <;> simp [inlineBeq, and_assoc]
      next u2 t2 c2 =>
        rw [inlineListBeq_iff c c2]
        exact fun _ _ => Iff.rfl
  | .image u t a, b => by
      cases b <;> simp [inlineBeq, and_assoc]
      next u2 t2 a2 =>
        rw [inlineListBeq_iff a a2]
        exact fun _ _ => Iff.rfl
  | .softBreak, b => by cases b <;> simp [inlineBeq]
  | .hardBreak, b => by cases b <;> simp [inlineBeq]
  | .html s, b => by cases b <;> simp [inlineBeq]

theorem inlineListBeq_iff : ∀ (l m : List Inline), inlineListBeq l m = true ↔ l = m
  | [], m => by cases m <;> simp [inlineListBeq]
  | x :: xs, m => by
      cases m with
      | nil => simp [inlineListBeq]
      | cons y ys =>
          simp [inlineListBeq, Bool.and_eq_true, inlineBeq_iff x y, inlineListBeq_iff xs ys]

end

instance : DecidableEq Inline := fun a b => decidable_of_iff _ (inlineBeq_iff a b)

mutual

/-- Structural (derived `PartialEq`-style) equality test on blocks. -/
def blockBeq : Block → Block → Bool
  | .paragraph a, .paragraph b => decide (a = b)
  | .heading l1 c1, .heading l2 c2 => decide (l1 = l2) && decide (c1 = c2)
  | .blockQuote a, .blockQuote b => blockListBeq a b
  | .codeBlock l1 c1, .codeBlock l2 c2 => decide (l1 = l2) && decide (c1 = c2)
  | .list o1 s1 i1, .list o2 s2 i2 => decide (o1 = o2) && decide (s1 = s2) && blockItemsBeq i1 i2
  | .thematicBreak, .thematicBreak => true
  | .table a1 h1 r1, .table a2 h2 r2 => decide (a1 = a2) && decide (h1 = h2) && decide (r1 = r2)
  | .htmlBlock a, .htmlBlock b => decide (a = b)
  | _, _ => false

/-- Elementwise equality test on block lists. -/
def blockListBeq : List Block → List Block → Bool
  | [], [] => true
  | x :: xs, y :: ys => blockBeq x y && blockListBeq xs ys
  | _, _ => false

/-- Elementwise equality test on list-item lists (each item a block list). -/
def blockItemsBeq : List (List Block) → List (List Block) → Bool
  | [], [] => true
  | x :: xs, y :: ys => blockListBeq x y && blockItemsBeq xs ys
  | _, _ => false

end

mutual

theorem blockBeq_iff : ∀ (a b : Block), blockBeq a b = true ↔ a = b
  | .paragraph l, b => by cases b <;> simp [blockBeq]
  | .heading lv c, b => by cases b <;> simp [blockBeq, and_assoc]
  | .blockQuote l, b => by
      cases b <;> simp [blockBeq]
      exact blockListBeq_iff l _
  | .codeBlock lg c, b => by cases b <;> simp [blockBeq, and_assoc]
  | .list o s i, b => by
      cases b <;> simp [blockBeq, and_assoc]
      next o2 s2 i2 =>
        rw [blockItemsBeq_iff i i2]
        exact fun _ _ => Iff.rfl
  | .thematicBreak, b => by cases b <;> simp [blockBeq]
  | .table a h r, b => by cases b <;> simp [blockBeq, and_assoc]
  | .htmlBlock s, b => by cases b <;> simp [blockBeq]

theorem blockListBeq_iff : ∀ (l m : List Block), blockListBeq l m = true ↔ l = m
  | [], m => by cases m <;> simp [blockListBeq]
  | x :: xs, m => by
      cases m with
      | nil => simp [blockListBeq]
      | cons y ys =>
          simp [blockListBeq, Bool.and_eq_true, blockBeq_iff x y, blockListBeq_iff xs ys]

theorem blockItemsBeq_iff : ∀ (l m : List (List Block)), blockItemsBeq l m = true ↔ l = m
  | [], m => by cases m <;> simp [blockItemsBeq]
  | x :: xs, m => by
      cases m with
      | nil => simp [blockItemsBeq]
      | cons y ys =>
          simp [blockItemsBeq, Bool.and_eq_true, blockListBeq_iff x y, blockItemsBeq_iff xs ys]

end

instance : DecidableEq Block := fun a b => decidable_of_iff _ (blockBeq_iff a b)

/-- Diff operations, from `src/diff.rs` (enum DiffOp). -/
inductive DiffOp (α : Type) where
  | equal (a : α)
  | remove (a : α)
  | add (a : α)
deriving DecidableEq, Repr

section LCS

variable {α : Type} [DecidableEq α] [Inhabited α]

/-- One row of the LCS table from the previous row.
`prev` holds the previous row from column `j-1` on; `left` is the entry just
computed in the current row (column `j-1`).  Mirrors the inner `for j` loop of
`diff_sequences` in `src/diff.rs`. -/
def lcsRowGo (a : α) : List α → List Nat → Nat → List Nat
  | [], _, _ => []
  | b :: bs, pj1 :: prest, left =>
    let v := if a = b then pj1 + 1 else max (prest.headD 0) left
    v :: lcsRowGo a bs prest v
  | _ :: _, [], _ => []

/-- Row `i` of the LCS table (for `old[i-1] = a`) from row `i-1`. -/
def lcsRow (a : α) (new : List α) (prev : List Nat) : List Nat :=
  0 :: lcsRowGo a new prev 0

/-- Rows `1..=m` of the LCS table, in order. -/
def lcsTableAux (new : List α) : List α → List Nat → List (List Nat)
  | [], _ => []
  | a :: as_, prev =>
    let r := lcsRow a new prev
    r :: lcsTableAux new as_ r

/-- The full LCS table of `diff_sequences` in `src/diff.rs`: row `i`, column
`j` holds the length of the longest common subsequence of `old[..i]` and
`new[..j]`, filled row by row with the recurrence of the source. -/
def lcsTable (old new : List α) : List (List Nat) :=
  List.replicate (new.length + 1) 0 :: lcsTableAux new old (List.replicate (new.length + 1) 0)

/-- Table lookup `table[i][j]`. -/
def lcsT (old new : List α) (i j : Nat) : Nat :=
  ((lcsTable old new).getD i []).getD j 0

/-- The backtracking loop of `diff_sequences` in `src/diff.rs`, producing ops
in backtrack order (the source pushes ops while walking from `(m, n)` toward
`(0, 0)` and reverses at the end).  Each iteration decreases `i + j`, so the
loop runs at most `i + j` times; `fuel` is initialised to exactly that bound
and is never exhausted (`backtrack_fuel_irrelevant`). -/
def backtrack (old new : List α) : Nat → Nat → Nat → List (DiffOp α)
  | 0, _, _ => []
  | _ + 1, 0, 0 => []
  | fuel + 1, 0, j + 1 => .add (new.getD j default) :: backtrack old new fuel 0 j
  | fuel + 1, i + 1, 0 => .remove (old.getD i default) :: backtrack old new fuel i 0
  | fuel + 1, i + 1, j + 1 =>
    if old[i]? = new[j]? then
      .equal (old.getD i default) :: backtrack old new fuel i j
    else if lcsT old new i (j + 1) ≤ lcsT old new (i + 1) j then
      .add (new.getD j default) :: backtrack old new fuel (i + 1) j
    else
      .remove (old.getD i default) :: backtrack old new fuel i (j + 1)

/-- LCS-based sequence diff, from `src/diff.rs` (fn diff_sequences). -/
def diff_sequences (old new : List α) : List (DiffOp α) :=
  (backtrack old new (old.length + new.length) old.length new.length).reverse

theorem backtrack_fuel_irrelevant (old new : List α) :
    ∀ (fuel fuel' i j : Nat), i + j ≤ fuel → i + j ≤ fuel' →
      backtrack old new fuel i j = backtrack old new fuel' i j := by
  intro fuel
  induction fuel with
  | zero =>
      intro fuel' i j h h'
      obtain rfl : i = 0 := by omega
      obtain rfl : j = 0 := by omega
      cases fuel' <;> rfl
  | succ f ih =>
      intro fuel' i j h h'
      cases fuel' with
      | zero =>
          obtain rfl : i = 0 := by omega
          obtain rfl : j = 0 := by omega
          rfl
      | succ f' =>
          cases i with
          | zero =>
              cases j with
              | zero => rfl
              | succ j =>
                  simp only [backtrack]
                  rw [ih f' 0 j (by omega) (by omega)]
          | succ i =>
              cases j with
              | zero =>
                  simp only [backtrack]
                  rw [ih f' i 0 (by omega) (by omega)]
              | succ j =>
                  simp only [backtrack]
                  rw [ih f' i j (by omega) (by omega), ih f' (i + 1) j (by omega) (by omega),
                    ih f' i (j + 1) (by omega) (by omega)]

end LCS

example : diff_sequences [1, 2, 3, 4, 5] [1, 3, 4, 6] =
    [.equal 1, .remove 2, .equal 3, .equal 4, .remove 5, .add 6] := by decide

/-- Payloads of the Equal and Remove ops, in output order: the old-side
reconstruction of the op list. -/
def oldSide {α : Type} : List (DiffOp α) → List α
  | [] => []
  | .equal a :: rest => a :: oldSide rest
  | .add _ :: rest => oldSide rest
  | .remove a :: rest => a :: oldSide rest

/-- Payloads of the Equal and Add ops, in output order: the new-side
reconstruction of the op list. -/
def newSide {α : Type} : List (DiffOp α) → List α
  | [] => []
  | .equal a :: rest => a :: newSide rest
  | .add a :: rest => a :: newSide rest
  | .remove _ :: rest => newSide rest

theorem oldSide_append {α : Type} (l l' : List (DiffOp α)) :
    oldSide (l ++ l') = oldSide l ++ oldSide l' := by
  induction l with
  | nil => rfl
  | cons op rest ih => cases op <;> simp [oldSide, ih]

theorem newSide_append {α : Type} (l l' : List (DiffOp α)) :
    newSide (l ++ l') = newSide l ++ newSide l' := by
  induction l with
  | nil => rfl
  | cons op rest ih => cases op <;> simp [newSide, ih]

theorem oldSide_reverse {α : Type} (l : List (DiffOp α)) :
    oldSide l.reverse = (oldSide l).reverse := by
  induction l with
  | nil => rfl
  | cons op rest ih => cases op <;> simp [oldSide, oldSide_append, ih]

theorem newSide_reverse {α : Type} (l : List (DiffOp α)) :
    newSide l.reverse = (newSide l).reverse := by
  induction l with
  | nil => rfl
  | cons op rest ih => cases op <;> simp [newSide, newSide_append, ih]

section LCSRecon

variable {α : Type} [DecidableEq α] [Inhabited α]

theorem take_succ_getD (l : List α) (j : Nat) (h : j < l.length) :
    l.take (j + 1) = l.take j ++ [l.getD j default] := by
  rw [List.take_succ, List.getElem?_eq_getElem h, List.getD_eq_getElem _ _ h]
  rfl

theorem backtrack_newSide (old new : List α) :
    ∀ fuel i j, i + j ≤ fuel → i ≤ old.length → j ≤ new.length →
      newSide (backtrack old new fuel i j) = (new.take j).reverse := by
  intro fuel
  induction fuel with
  | zero =>
      intro i j h _ _
      obtain rfl : i = 0 := by omega
      obtain rfl : j = 0 := by omega
      rfl
  | succ f ih =>
      intro i j h hi hj
      cases i with
      | zero =>
          cases j with
          | zero => rfl
          | succ j =>
              simp only [backtrack, newSide]
              rw [ih 0 j (by omega) (by omega) (by omega),
                take_succ_getD new j (by omega)]
              simp
      | succ i =>
          cases j with
          | zero =>
              simp only [backtrack, newSide]
              exact ih i 0 (by omega) (by omega) (by omega)
          | succ j =>
              simp only [backtrack]
              split
              · next heq =>
                  have hij : old.getD i default = new.getD j default := by
                    rw [List.getElem?_eq_getElem (by omega : i < old.length),
                      List.getElem?_eq_getElem (by omega : j < new.length)] at heq
                    rw [List.getD_eq_getElem _ _ (by omega : i < old.length),
                      List.getD_eq_getElem _ _ (by omega : j < new.length)]
                    exact Option.some.inj heq
                  simp only [newSide]
                  rw [ih i j (by omega) (by omega) (by omega), hij,
                    take_succ_getD new j (by omega)]
                  simp
              · split
                · simp only [newSide]
                  rw [ih (i + 1) j (by omega) (by omega) (by omega),
                    take_succ_getD new j (by omega)]
                  simp
                · simp only [newSide]
                  exact ih i (j + 1) (by omega) (by omega) (by omega)

theorem backtrack_oldSide (old new : List α) :
    ∀ fuel i j, i + j ≤ fuel → i ≤ old.length → j ≤ new.length →
      oldSide (backtrack old new fuel i j) = (old.take i).reverse := by
  intro fuel
  induction fuel with
  | zero =>
      intro i j h _ _
      obtain rfl : i = 0 := by omega
      obtain rfl : j = 0 := by omega
      rfl
  | succ f ih =>
      intro i j h hi hj
      cases i with
      | zero =>
          cases j with
          | zero => rfl
          | succ j =>
              simp only [backtrack, oldSide]
              exact ih 0 j (by omega) (by omega) (by omega)
      | succ i =>
          cases j with
          | zero =>
              simp only [backtrack, oldSide]
              rw [ih i 0 (by omega) (by omega) (by omega),
                take_succ_getD old i (by omega)]
              simp
          | succ j =>
              simp only [backtrack]
              split
              · simp only [oldSide]
                rw [ih i j (by omega) (by omega) (by omega),
                  take_succ_getD old i (by omega)]
                simp
              · split
                · simp only [oldSide]
                  exact ih (i + 1) j (by omega) (by omega) (by omega)
                · simp only [oldSide]
                  rw [ih i (j + 1) (by omega) (by omega) (by omega),
                    take_succ_getD old i (by omega)]
                  simp

end LCSRecon

theorem diff_sequences_newSide_eq {α : Type} [DecidableEq α] [Inhabited α]
    (old new : List α) : newSide (diff_sequences old new) = new := by
  unfold diff_sequences
  rw [newSide_reverse,
    backtrack_newSide old new _ _ _ (le_refl _) (le_refl _) (le_refl _)]
  simp

theorem diff_sequences_oldSide_eq {α : Type} [DecidableEq α] [Inhabited α]
    (old new : List α) : oldSide (diff_sequences old new) = old := by
  unfold diff_sequences
  rw [oldSide_reverse,
    backtrack_oldSide old new _ _ _ (le_refl _) (le_refl _) (le_refl _)]
  simp

/-- C1: concatenating the Equal/Add payloads of `diff_sequences old new` in
output order reconstructs `new`, and concatenating the Equal/Remove payloads
reconstructs `old`. -/
theorem diff_sequences_reconstruction {α : Type} [DecidableEq α] [Inhabited α]
    (old new : List α) :
    newSide (diff_sequences old new) = new ∧ oldSide (diff_sequences old new) = old :=
  ⟨diff_sequences_newSide_eq old new, diff_sequences_oldSide_eq old new⟩

section LCSTable

variable {α : Type} [DecidableEq α] [Inhabited α]

theorem headD_eq_getD (l : List Nat) (d : Nat) : l.headD d = l.getD 0 d := by
  cases l <;> rfl

theorem getD_cons_ite (v : Nat) (rec : List Nat) (j : Nat) :
    (v :: rec).getD j 0 = if j = 0 then v else rec.getD (j - 1) 0 := by
  cases j <;> simp

theorem lcsRowGo_length (a : α) :
    ∀ (bs : List α) (prev : List Nat) (left : Nat), bs.length ≤ prev.length →
      (lcsRowGo a bs prev left).length = bs.length := by
  intro bs
  induction bs with
  | nil => intro prev left _; rfl
  | cons b bs ih =>
      intro prev left h
      cases prev with
      | nil => simp at h
      | cons p0 prest =>
          simp only [lcsRowGo, List.length_cons]
          rw [ih prest _ (by simpa using h)]

theorem lcsRowGo_getD (a : α) :
    ∀ (bs : List α) (prev : List Nat) (left : Nat) (j : Nat),
      j < bs.length → bs.length + 1 ≤ prev.length →
      (lcsRowGo a bs prev left).getD j 0 =
        if a = bs.getD j default then prev.getD j 0 + 1
        else max (prev.getD (j + 1) 0)
          (if j = 0 then left else (lcsRowGo a bs prev left).getD (j - 1) 0) := by
  intro bs
  induction bs with
  | nil => intro prev left j hj _; simp at hj
  | cons b bs ih =>
      intro prev left j hj hlen
      cases prev with
      | nil => simp at hlen
      | cons p0 prest =>
          cases j with
          | zero =>
              simp only [lcsRowGo, List.getD_cons_zero, if_pos rfl]
              rw [headD_eq_getD]
              rfl
          | succ j =>
              simp only [lcsRowGo, List.getD_cons_succ]
              rw [ih prest _ j (by simpa using hj) (by simpa using hlen)]
              rcases j with _ | j <;> simp

theorem lcsRow_length (a : α) (new : List α) (prev : List Nat)
    (h : new.length ≤ prev.length) : (lcsRow a new prev).length = new.length + 1 := by
  simp only [lcsRow, List.length_cons]
  rw [lcsRowGo_length a new prev 0 h]

theorem lcsRow_getD_zero (a : α) (new : List α) (prev : List Nat) :
    (lcsRow a new prev).getD 0 0 = 0 := rfl

theorem lcsRow_getD_succ (a : α) (new : List α) (prev : List Nat) (j : Nat)
    (hj : j < new.length) (hlen : new.length + 1 ≤ prev.length) :
    (lcsRow a new prev).getD (j + 1) 0 =
      if a = new.getD j default then prev.getD j 0 + 1
      else max (prev.getD (j + 1) 0) ((lcsRow a new prev).getD j 0) := by
  simp only [lcsRow, List.getD_cons_succ]
  rw [lcsRowGo_getD a new prev 0 j hj hlen, getD_cons_ite]

/-- The previous row seen from row `i` of `lcsTableAux new olds prev`. -/
def tablePrevRow (new : List α) (olds : List α) (prev : List Nat) (i : Nat) : List Nat :=
  if i = 0 then prev else (lcsTableAux new olds prev).getD (i - 1) []

theorem lcsTableAux_bridge (new : List α) :
    ∀ (olds : List α) (prev : List Nat) (i j : Nat),
      i < olds.length → j < new.length → prev.length = new.length + 1 →
      ((lcsTableAux new olds prev).getD i []).getD (j + 1) 0 =
        if olds.getD i default = new.getD j default
        then (tablePrevRow new olds prev i).getD j 0 + 1
        else max ((tablePrevRow new olds prev i).getD (j + 1) 0)
          (((lcsTableAux new olds prev).getD i []).getD j 0) := by
  intro olds
  induction olds with
  | nil => intro prev i j hi _ _; simp at hi
  | cons a as ih =>
      intro prev i j hi hj hlen
      cases i with
      | zero =>
          simp only [lcsTableAux, List.getD_cons_zero, tablePrevRow, if_pos rfl,
            List.getD_cons_zero]
          exact lcsRow_getD_succ a new prev j hj (by omega)
      | succ i =>
          simp only [lcsTableAux, List.getD_cons_succ, tablePrevRow]
          rw [ih (lcsRow a new prev) i j (by simpa using hi) hj
            (lcsRow_length a new prev (by omega))]
          simp only [tablePrevRow]
          rcases i with _ | i <;> simp

theorem lcsTableAux_getD_getD_zero (new : List α) :
    ∀ (olds : List α) (prev : List Nat) (i : Nat),
      ((lcsTableAux new olds prev).getD i []).getD 0 0 = 0 := by
  intro olds
  induction olds with
  | nil => intro prev i; cases i <;> rfl
  | cons a as ih =>
      intro prev i
      cases i with
      | zero => rfl
      | succ i => simpa only [lcsTableAux, List.getD_cons_succ] using ih (lcsRow a new prev) i

/-- Column 0 of the LCS table is all zero. -/
theorem lcsT_zero_right (old new : List α) (i : Nat) : lcsT old new i 0 = 0 := by
  cases i with
  | zero => simp [lcsT, lcsTable]
  | succ i =>
      simp only [lcsT, lcsTable, List.getD_cons_succ]
      exact lcsTableAux_getD_getD_zero new old _ i

/-- Row 0 of the LCS table is all zero. -/
theorem lcsT_zero_left (old new : List α) (j : Nat) : lcsT old new 0 j = 0 := by
  simp only [lcsT, lcsTable, List.getD_cons_zero]
  rcases lt_or_le j (new.length + 1) with h | h
  · rw [List.getD_eq_getElem _ _ (by simpa using h)]
    simp
  · rw [List.getD_eq_default]
    simpa using h

/-- The recurrence of the LCS table of `diff_sequences`, as filled by the
source: for in-range `i`, `j`,
`table[i+1][j+1] = table[i][j] + 1` when `old[i] == new[j]`, else
`max (table[i][j+1]) (table[i+1][j])`. -/
theorem lcsT_succ_succ (old new : List α) (i j : Nat)
    (hi : i < old.length) (hj : j < new.length) :
    lcsT old new (i + 1) (j + 1) =
      if old.getD i default = new.getD j default then lcsT old new i j + 1
      else max (lcsT old new i (j + 1)) (lcsT old new (i + 1) j) := by
  have hrep : (List.replicate (new.length + 1) (0 : Nat)).length = new.length + 1 := by simp
  have hb := lcsTableAux_bridge new old (List.replicate (new.length + 1) 0) i j hi hj hrep
  have hprev : ∀ x : Nat, (tablePrevRow new old (List.replicate (new.length + 1) 0) i).getD x 0 =
      lcsT old new i x := by
    intro x
    cases i with
    | zero => simp [tablePrevRow, lcsT, lcsTable]
    | succ i => simp [tablePrevRow, lcsT, lcsTable]
  simp only [lcsT, lcsTable, List.getD_cons_succ] at hb ⊢
  rw [hb, hprev j, hprev (j + 1)]
  simp only [lcsT, lcsTable, List.getD_cons_succ]

/-- Monotonicity and unit-step bounds of the LCS table, for in-range cells:
each entry is monotone in both indices and grows by at most one per step. -/
theorem lcsT_pack (old new : List α) :
    ∀ N i j, i + j ≤ N →
      ((i + 1 ≤ old.length → j ≤ new.length →
          lcsT old new i j ≤ lcsT old new (i + 1) j) ∧
       (i ≤ old.length → j + 1 ≤ new.length →
          lcsT old new i j ≤ lcsT old new i (j + 1)) ∧
       (i + 1 ≤ old.length → j ≤ new.length →
          lcsT old new (i + 1) j ≤ lcsT old new i j + 1) ∧
       (i ≤ old.length → j + 1 ≤ new.length →
          lcsT old new i (j + 1) ≤ lcsT old new i j + 1)) := by
  intro N
  induction N with
  | zero =>
      intro i j h
      obtain rfl : i = 0 := by omega
      obtain rfl : j = 0 := by omega
      refine ⟨fun _ _ => ?_, fun _ _ => ?_, fun _ _ => ?_, fun _ _ => ?_⟩
      · rw [lcsT_zero_left]; omega
      · rw [lcsT_zero_left]; omega
      · rw [lcsT_zero_right]; omega
      · rw [lcsT_zero_left, lcsT_zero_left]; omega
  | succ N ih =>
      intro i j h
      refine ⟨?_, ?_, ?_, ?_⟩
      · -- mono1 : T i j ≤ T (i+1) j
        intro hi hj
        cases j with
        | zero => rw [lcsT_zero_right]; omega
        | succ j =>
            rw [lcsT_succ_succ old new i j (by omega) (by omega)]
            split
            · have := (ih i j (by omega)).2.2.2 (by omega) (by omega)
              omega
            · exact le_max_left _ _
      · -- mono2 : T i j ≤ T i (j+1)
        intro hi hj
        cases i with
        | zero => rw [lcsT_zero_left]; omega
        | succ i =>
            rw [lcsT_succ_succ old new i j (by omega) (by omega)]
            split
            · have := (ih i j (by omega)).2.2.1 (by omega) (by omega)
              omega
            · exact le_max_right _ _
      · -- step1 : T (i+1) j ≤ T i j + 1
        intro hi hj
        cases j with
        | zero => rw [lcsT_zero_right, lcsT_zero_right]; omega
        | succ j =>
            rw [lcsT_succ_succ old new i j (by omega) (by omega)]
            split
            · have := (ih i j (by omega)).2.1 (by omega) (by omega)
              omega
            · have h1 := (ih i j (by omega)).2.2.1 (by omega) (by omega)
              have h2 := (ih i j (by omega)).2.1 (by omega) (by omega)
              simp only [max_le_iff]
              omega
      · -- step2 : T i (j+1) ≤ T i j + 1
        intro hi hj
        cases i with
        | zero => rw [lcsT_zero_left, lcsT_zero_left]; omega
        | succ i =>
            rw [lcsT_succ_succ old new i j (by omega) (by omega)]
            split
            · have := (ih i j (by omega)).1 (by omega) (by omega)
              omega
            · have h1 := (ih i j (by omega)).2.2.2 (by omega) (by omega)
              have h2 := (ih i j (by omega)).1 (by omega) (by omega)
              simp only [max_le_iff]
              omega

/-- In-range monotonicity of the LCS table in the first index. -/
theorem lcsT_mono_left (old new : List α) (i j : Nat)
    (hi : i + 1 ≤ old.length) (hj : j ≤ new.length) :
    lcsT old new i j ≤ lcsT old new (i + 1) j :=
  (lcsT_pack old new (i + j) i j (le_refl _)).1 hi hj

end LCSTable

/-- Canonical run shape of an op list in output order: between two Equal ops
(or the ends), every Remove precedes every Add — i.e. no Add is followed by a
Remove without an Equal strictly in between. -/
def Canon {α : Type} (l : List (DiffOp α)) : Prop :=
  ∀ l₁ a l₂ r l₃, l = l₁ ++ .add a :: l₂ ++ .remove r :: l₃ → ∃ e, DiffOp.equal e ∈ l₂

/-- Mirror of `Canon` for the backtracker's push order (which is reversed at
the end): no Remove is followed by an Add without an Equal in between. -/
def PushCanon {α : Type} (l : List (DiffOp α)) : Prop :=
  ∀ l₁ r l₂ a l₃, l = l₁ ++ .remove r :: l₂ ++ .add a :: l₃ → ∃ e, DiffOp.equal e ∈ l₂

/-- No Add op occurs before the first Equal op. -/
def NoLeadAdd {α : Type} (l : List (DiffOp α)) : Prop :=
  ∀ l₁ a l₂, l = l₁ ++ .add a :: l₂ → ∃ e, DiffOp.equal e ∈ l₁

section CanonLemmas

variable {α : Type}

theorem pushCanon_nil : PushCanon ([] : List (DiffOp α)) := by
  intro l₁ r l₂ a l₃ h
  exact absurd h (by simp)

theorem noLeadAdd_nil : NoLeadAdd ([] : List (DiffOp α)) := by
  intro l₁ a l₂ h
  exact absurd h (by simp)

theorem pushCanon_cons_equal (x : α) (rest : List (DiffOp α)) (h : PushCanon rest) :
    PushCanon (.equal x :: rest) := by
  intro l₁ r l₂ a l₃ hsplit
  cases l₁ with
  | nil => simp at hsplit
  | cons y l₁ =>
      rw [List.cons_append] at hsplit
      exact h l₁ r l₂ a l₃ (List.cons.inj hsplit).2

theorem pushCanon_cons_add (x : α) (rest : List (DiffOp α)) (h : PushCanon rest) :
    PushCanon (.add x :: rest) := by
  intro l₁ r l₂ a l₃ hsplit
  cases l₁ with
  | nil => simp at hsplit
  | cons y l₁ =>
      rw [List.cons_append] at hsplit
      exact h l₁ r l₂ a l₃ (List.cons.inj hsplit).2

theorem pushCanon_cons_remove (x : α) (rest : List (DiffOp α))
    (h : PushCanon rest) (h2 : NoLeadAdd rest) : PushCanon (.remove x :: rest) := by
  intro l₁ r l₂ a l₃ hsplit
  cases l₁ with
  | nil =>
      rw [List.nil_append] at hsplit
      exact h2 l₂ a l₃ (List.cons.inj hsplit).2
  | cons y l₁ =>
      rw [List.cons_append] at hsplit
      exact h l₁ r l₂ a l₃ (List.cons.inj hsplit).2

theorem noLeadAdd_cons_equal (x : α) (rest : List (DiffOp α)) :
    NoLeadAdd (.equal x :: rest) := by
  intro l₁ a l₂ hsplit
  cases l₁ with
  | nil => simp at hsplit
  | cons y l₁ =>
      rw [List.cons_append] at hsplit
      obtain ⟨rfl, -⟩ := List.cons.inj hsplit
      exact ⟨x, List.mem_cons_self _ _⟩

theorem noLeadAdd_cons_remove (x : α) (rest : List (DiffOp α)) (h : NoLeadAdd rest) :
    NoLeadAdd (.remove x :: rest) := by
  intro l₁ a l₂ hsplit
  cases l₁ with
  | nil => simp at hsplit
  | cons y l₁ =>
      rw [List.cons_append] at hsplit
      obtain ⟨e, he⟩ := h l₁ a l₂ (List.cons.inj hsplit).2
      exact ⟨e, List.mem_cons_of_mem _ he⟩

end CanonLemmas

section Canonicity

variable {α : Type} [DecidableEq α] [Inhabited α]

theorem getElem?_eq_iff_getD (old new : List α) (i j : Nat)
    (hi : i < old.length) (hj : j < new.length) :
    (old[i]? = new[j]?) ↔ old.getD i default = new.getD j default := by
  rw [List.getElem?_eq_getElem hi, List.getElem?_eq_getElem hj,
    List.getD_eq_getElem _ _ hi, List.getD_eq_getElem _ _ hj]
  exact ⟨fun h => Option.some.inj h, fun h => by rw [h]⟩

/-- Joint induction: the push-order op list of the backtracker has no Remove
followed by an Add inside one region, and after a Remove step the suffix list
has no Add before its first Equal. -/
theorem backtrack_pushCanon (old new : List α) :
    ∀ fuel i j, i + j ≤ fuel → i ≤ old.length → j ≤ new.length →
      (PushCanon (backtrack old new fuel i j)) ∧
      (i + 1 ≤ old.length →
        (j = 0 ∨ lcsT old new (i + 1) (j - 1) < lcsT old new i j) →
        PushCanon (backtrack old new fuel i j) ∧ NoLeadAdd (backtrack old new fuel i j)) := by
  intro fuel
  induction fuel with
  | zero =>
      intro i j h hi hj
      obtain rfl : i = 0 := by omega
      obtain rfl : j = 0 := by omega
      exact ⟨pushCanon_nil, fun _ _ => ⟨pushCanon_nil, noLeadAdd_nil⟩⟩
  | succ f ih =>
      intro i j h hi hj
      cases i with
      | zero =>
          cases j with
          | zero => exact ⟨pushCanon_nil, fun _ _ => ⟨pushCanon_nil, noLeadAdd_nil⟩⟩
          | succ j =>
              have hA : PushCanon (backtrack old new (f + 1) 0 (j + 1)) := by
                simp only [backtrack]
                exact pushCanon_cons_add _ _ (ih 0 j (by omega) (by omega) (by omega)).1
              refine ⟨hA, fun _ hcond => ?_⟩
              rcases hcond with hcond | hcond
              · omega
              · rw [lcsT_zero_left] at hcond
                omega
      | succ i =>
          cases j with
          | zero =>
              have hrec := (ih i 0 (by omega) (by omega) (by omega)).2 (by omega) (Or.inl rfl)
              have hA : PushCanon (backtrack old new (f + 1) (i + 1) 0) := by
                simp only [backtrack]
                exact pushCanon_cons_remove _ _ hrec.1 hrec.2
              have hB : NoLeadAdd (backtrack old new (f + 1) (i + 1) 0) := by
                simp only [backtrack]
                exact noLeadAdd_cons_remove _ _ hrec.2
              exact ⟨hA, fun _ _ => ⟨hA, hB⟩⟩
          | succ j =>
              by_cases heq : old[i]? = new[j]?
              · have hA : PushCanon (backtrack old new (f + 1) (i + 1) (j + 1)) := by
                  simp only [backtrack, if_pos heq]
                  exact pushCanon_cons_equal _ _ (ih i j (by omega) (by omega) (by omega)).1
                have hB : NoLeadAdd (backtrack old new (f + 1) (i + 1) (j + 1)) := by
                  simp only [backtrack, if_pos heq]
                  exact noLeadAdd_cons_equal _ _
                exact ⟨hA, fun _ _ => ⟨hA, hB⟩⟩
              · by_cases hcmp : lcsT old new i (j + 1) ≤ lcsT old new (i + 1) j
                · -- Add branch
                  have hA : PushCanon (backtrack old new (f + 1) (i + 1) (j + 1)) := by
                    simp only [backtrack, if_neg heq, if_pos hcmp]
                    exact pushCanon_cons_add _ _ (ih (i + 1) j (by omega) (by omega) (by omega)).1
                  refine ⟨hA, fun hi1 hcond => ?_⟩
                  -- the caller took a Remove into this cell: contradiction with the table
                  exfalso
                  rcases hcond with hcond | hcond
                  · omega
                  · have hbridge := lcsT_succ_succ old new i j (by omega) (by omega)
                    rw [if_neg ((not_iff_not.mpr
                      (getElem?_eq_iff_getD old new i j (by omega) (by omega))).mp heq)] at hbridge
                    have hmax : lcsT old new (i + 1) (j + 1) = lcsT old new (i + 1) j := by
                      rw [hbridge]
                      exact max_eq_right hcmp
                    have hmono := lcsT_mono_left old new (i + 1) j (by omega) (by omega)
                    simp only [Nat.add_sub_cancel] at hcond
                    omega
                · -- Remove branch
                  have hrec := (ih i (j + 1) (by omega) (by omega) (by omega)).2 (by omega)
                    (Or.inr (by simpa using Nat.lt_of_not_le hcmp))
                  have hA : PushCanon (backtrack old new (f + 1) (i + 1) (j + 1)) := by
                    simp only [backtrack, if_neg heq, if_neg hcmp]
                    exact pushCanon_cons_remove _ _ hrec.1 hrec.2
                  have hB : NoLeadAdd (backtrack old new (f + 1) (i + 1) (j + 1)) := by
                    simp only [backtrack, if_neg heq, if_neg hcmp]
                    exact noLeadAdd_cons_remove _ _ hrec.2
                  exact ⟨hA, fun _ _ => ⟨hA, hB⟩⟩

/-- Transport of the push-order property through the final reversal. -/
theorem canon_of_pushCanon (l : List (DiffOp α)) (h : PushCanon l) : Canon l.reverse := by
  intro l₁ a l₂ r l₃ hsplit
  have hl : l = l₃.reverse ++ .remove r :: l₂.reverse ++ .add a :: l₁.reverse := by
    have := congrArg List.reverse hsplit
    simpa [List.reverse_append] using this
  obtain ⟨e, he⟩ := h l₃.reverse r l₂.reverse a l₁.reverse (by simpa using hl)
  exact ⟨e, by simpa using he⟩

/-- The op list produced by `diff_sequences` is canonical: inside every
changed region (between Equals), all Removes precede all Adds. -/
theorem diff_sequences_canon (old new : List α) : Canon (diff_sequences old new) :=
  canon_of_pushCanon _
    (backtrack_pushCanon old new _ _ _ (le_refl _) (le_refl _) (le_refl _)).1

end Canonicity

/-- `join(" ")` on a word list, from the flush closures in `src/diff.rs`. -/
def joinSp : List String → String
  | [] => ""
  | [w] => w
  | w :: rest => w ++ " " ++ joinSp rest

/-- Accumulator pass of `str::split_whitespace` (Rust): maximal runs of
non-whitespace characters, in order; `cur` is the reversed current word. -/
def splitWhitespaceAux : List Char → List Char → List (List Char)
  | cur, [] => if cur.isEmpty then [] else [cur.reverse]
  | cur, c :: rest =>
    if c.isWhitespace then
      if cur.isEmpty then splitWhitespaceAux [] rest
      else cur.reverse :: splitWhitespaceAux [] rest
    else splitWhitespaceAux (c :: cur) rest

/-- `split_whitespace().collect()` as used in `src/diff.rs`. -/
def split_whitespace (s : String) : List String :=
  (splitWhitespaceAux [] s.toList).map fun l => String.mk l

/-- Plain-text flattener, from `src/ast.rs` (fn inline_text). -/
def inline_text : List Inline → String
  | [] => ""
  | .text t :: rest => t ++ inline_text rest
  | .code c :: rest => "`" ++ c ++ "`" ++ inline_text rest
  | .emphasis inner :: rest => inline_text inner ++ inline_text rest
  | .strong inner :: rest => inline_text inner ++ inline_text rest
  | .strikethrough inner :: rest => inline_text inner ++ inline_text rest
  | .link _ _ content :: rest => inline_text content ++ inline_text rest
  | .image _ _ alt :: rest => inline_text alt ++ inline_text rest
  | .softBreak :: rest => " " ++ inline_text rest
  | .hardBreak :: rest => " " ++ inline_text rest
  | .html h :: rest => h ++ inline_text rest

/-- The flush closure shared (up to the wrapped constructors) by
`diff_inlines` and the code-block branch of `diff_block_inline` in
`src/diff.rs`: emit the pending removed run (one `mkRem` span), then the
pending added run (one `mkAdd` span), space-separating from what is already
in `result`. -/
def flushRuns (mkRem mkAdd : String → Inline) (result : List Inline)
    (removed added : List String) : List Inline :=
  let r1 :=
    if removed.isEmpty then result
    else result ++ (if result.isEmpty then [] else [Inline.text " "]) ++ [mkRem (joinSp removed)]
  if added.isEmpty then r1
  else r1 ++ (if r1.isEmpty then [] else [Inline.text " "]) ++ [mkAdd (joinSp added)]

/-- The emit loop shared by `diff_inlines` (with Text spans) and the
code-block branch of `diff_block_inline` (with Code spans) in `src/diff.rs`:
walk the op list, accumulating removed/added runs and flushing them at each
Equal and at the end. -/
def emitLoop (mkEq mkRem mkAdd : String → Inline) :
    List (DiffOp String) → List Inline → List String → List String → List Inline
  | [], result, removed, added => flushRuns mkRem mkAdd result removed added
  | .equal w :: rest, result, removed, added =>
      let r := flushRuns mkRem mkAdd result removed added
      emitLoop mkEq mkRem mkAdd rest
        (r ++ (if r.isEmpty then [] else [Inline.text " "]) ++ [mkEq w]) [] []
  | .remove w :: rest, result, removed, added =>
      emitLoop mkEq mkRem mkAdd rest result (removed ++ [w]) added
  | .add w :: rest, result, removed, added =>
      emitLoop mkEq mkRem mkAdd rest result removed (added ++ [w])

/-- A space separator before each token. -/
def sepList : List Inline → List Inline
  | [] => []
  | t :: ts => Inline.text " " :: t :: sepList ts

/-- Append tokens to `r`, space-separating every token from its neighbour
(no leading space when `r` is empty). -/
def glue : List Inline → List Inline → List Inline
  | [], [] => []
  | [], t :: ts => t :: sepList ts
  | r, toks => r ++ sepList toks

/-- The leading maximal run of Remove payloads. -/
def takeRemoves : List (DiffOp String) → List String
  | .remove w :: rest => w :: takeRemoves rest
  | _ => []

/-- Drop the leading maximal run of Removes. -/
def dropRemoves : List (DiffOp String) → List (DiffOp String)
  | .remove _ :: rest => dropRemoves rest
  | l => l

/-- The leading maximal run of Add payloads. -/
def takeAdds : List (DiffOp String) → List String
  | .add w :: rest => w :: takeAdds rest
  | _ => []

/-- Drop the leading maximal run of Adds. -/
def dropAdds : List (DiffOp String) → List (DiffOp String)
  | .add _ :: rest => dropAdds rest
  | l => l

theorem dropRemoves_length : ∀ l : List (DiffOp String), (dropRemoves l).length ≤ l.length := by
  intro l
  induction l with
  | nil => simp [dropRemoves]
  | cons op rest ih => cases op <;> simp [dropRemoves] <;> omega

theorem dropAdds_length : ∀ l : List (DiffOp String), (dropAdds l).length ≤ l.length := by
  intro l
  induction l with
  | nil => simp [dropAdds]
  | cons op rest ih => cases op <;> simp [dropAdds] <;> omega

/-- Spec-side token list (written from the spec's words, §4.3): each Equal
word becomes one `mkEq` token; each maximal run of consecutive Remove words
becomes exactly one `mkRem` token of the run's words joined with single
spaces; each maximal run of consecutive Add words becomes exactly one `mkAdd`
token with the same join rule. -/
def specToks (mkEq mkRem mkAdd : String → Inline) : List (DiffOp String) → List Inline
  | [] => []
  | .equal w :: rest => mkEq w :: specToks mkEq mkRem mkAdd rest
  | .remove w :: rest =>
      mkRem (joinSp (w :: takeRemoves rest)) :: specToks mkEq mkRem mkAdd (dropRemoves rest)
  | .add w :: rest =>
      mkAdd (joinSp (w :: takeAdds rest)) :: specToks mkEq mkRem mkAdd (dropAdds rest)
termination_by l => l.length
decreasing_by
  · simp
  · have := dropRemoves_length rest; simp; omega
  · have := dropAdds_length rest; simp; omega

/-- The tokens flushed for one pending removed run and one pending added run:
removed first, then added. -/
def flushToks (mkRem mkAdd : String → Inline) (removed added : List String) : List Inline :=
  (if removed.isEmpty then [] else [mkRem (joinSp removed)]) ++
    (if added.isEmpty then [] else [mkAdd (joinSp added)])

theorem sepList_append (x y : List Inline) : sepList (x ++ y) = sepList x ++ sepList y := by
  induction x with
  | nil => rfl
  | cons t ts ih => simp [sepList, ih]

theorem glue_append (r x y : List Inline) : glue r (x ++ y) = glue (glue r x) y := by
  cases r with
  | nil =>
      cases x with
      | nil => rfl
      | cons t ts => simp [glue, sepList_append]
  | cons c r' =>
      cases x with
      | nil => simp [glue, sepList]
      | cons t ts => simp [glue, sepList, sepList_append]

theorem glue_single (x : List Inline) (t : Inline) :
    x ++ (if x.isEmpty then [] else [Inline.text " "]) ++ [t] = glue x [t] := by
  cases x <;> simp [glue, sepList]

theorem flushRuns_glue (mkRem mkAdd : String → Inline) (r : List Inline)
    (removed added : List String) :
    flushRuns mkRem mkAdd r removed added = glue r (flushToks mkRem mkAdd removed added) := by
  cases removed <;> cases added <;> cases r <;>
    simp [flushRuns, flushToks, glue, sepList]

theorem canon_cons {α : Type} (op : DiffOp α) (rest : List (DiffOp α))
    (h : Canon (op :: rest)) : Canon rest := by
  intro l₁ a l₂ r l₃ hsplit
  exact h (op :: l₁) a l₂ r l₃ (by rw [hsplit]; simp)

/-- No Remove op occurs before the first Equal op. -/
def NoLeadRemove {α : Type} (l : List (DiffOp α)) : Prop :=
  ∀ l₁ r l₂, l = l₁ ++ .remove r :: l₂ → ∃ e, DiffOp.equal e ∈ l₁

theorem noLeadRemove_head {α : Type} (w : α) (rest : List (DiffOp α))
    (h : NoLeadRemove (.remove w :: rest)) : False := by
  obtain ⟨e, he⟩ := h [] w rest rfl
  simp at he

theorem noLeadRemove_cons_add {α : Type} (w : α) (rest : List (DiffOp α))
    (h : NoLeadRemove (.add w :: rest)) : NoLeadRemove rest := by
  intro l₁ r l₂ hsplit
  obtain ⟨e, he⟩ := h (.add w :: l₁) r l₂ (by rw [hsplit, List.cons_append])
  rcases List.mem_cons.mp he with he | he
  · exact absurd he (by simp)
  · exact ⟨e, he⟩

theorem canon_cons_add_noLeadRemove {α : Type} (w : α) (rest : List (DiffOp α))
    (h : Canon (.add w :: rest)) : NoLeadRemove rest := by
  intro l₁ r l₂ hsplit
  exact h [] w l₁ r l₂ (by rw [hsplit]; rfl)

theorem takeRemoves_map_remove (rs : List String) (l : List (DiffOp String)) :
    takeRemoves (rs.map .remove ++ l) = rs ++ takeRemoves l := by
  induction rs with
  | nil => rfl
  | cons rr rs ih => simp [takeRemoves, ih]

theorem dropRemoves_map_remove (rs : List String) (l : List (DiffOp String)) :
    dropRemoves (rs.map .remove ++ l) = dropRemoves l := by
  induction rs with
  | nil => rfl
  | cons rr rs ih => simp [dropRemoves, ih]

theorem takeAdds_map_add (as_ : List String) (l : List (DiffOp String)) :
    takeAdds (as_.map .add ++ l) = as_ ++ takeAdds l := by
  induction as_ with
  | nil => rfl
  | cons aa as_ ih => simp [takeAdds, ih]

theorem dropAdds_map_add (as_ : List String) (l : List (DiffOp String)) :
    dropAdds (as_.map .add ++ l) = dropAdds l := by
  induction as_ with
  | nil => rfl
  | cons aa as_ ih => simp [dropAdds, ih]

theorem specToks_adds (mkE mkR mkA : String → Inline) (as_ : List String)
    (tail : List (DiffOp String)) (h1 : takeAdds tail = []) (h2 : dropAdds tail = tail) :
    specToks mkE mkR mkA (as_.map .add ++ tail) =
      (if as_.isEmpty then [] else [mkA (joinSp as_)]) ++ specToks mkE mkR mkA tail := by
  cases as_ with
  | nil => simp
  | cons aa as_ =>
      simp only [List.map_cons, List.cons_append, specToks, takeAdds_map_add,
        dropAdds_map_add, h1, h2, List.append_nil, List.isEmpty_cons]
      simp

theorem specToks_removes_adds (mkE mkR mkA : String → Inline) (rs as_ : List String)
    (tail : List (DiffOp String))
    (ha1 : takeAdds tail = []) (ha2 : dropAdds tail = tail)
    (hr1 : takeRemoves tail = []) (hr2 : dropRemoves tail = tail) :
    specToks mkE mkR mkA (rs.map .remove ++ as_.map .add ++ tail) =
      flushToks mkR mkA rs as_ ++ specToks mkE mkR mkA tail := by
  cases rs with
  | nil =>
      rw [List.map_nil, List.nil_append, specToks_adds mkE mkR mkA as_ tail ha1 ha2]
      simp [flushToks]
  | cons rr rs =>
      have htr : takeRemoves (as_.map .add ++ tail) = [] := by
        cases as_ with
        | nil => simpa using hr1
        | cons aa as_ => rfl
      have hdr : dropRemoves (as_.map .add ++ tail) = as_.map .add ++ tail := by
        cases as_ with
        | nil => simpa using hr2
        | cons aa as_ => rfl
      simp only [List.map_cons, List.cons_append, specToks, List.append_assoc,
        takeRemoves_map_remove, dropRemoves_map_remove, htr, hdr, List.append_nil]
      rw [specToks_adds mkE mkR mkA as_ tail ha1 ha2]
      simp [flushToks]

/-- The emit loop, run from an arbitrary intermediate state on a canonical op
list, produces exactly the space-separated spec token list of the pending
runs followed by the remaining ops. -/
theorem emitLoop_spec (mkE mkR mkA : String → Inline) :
    ∀ (ops : List (DiffOp String)) (removed added : List String) (r : List Inline),
      Canon ops → (added ≠ [] → NoLeadRemove ops) →
      emitLoop mkE mkR mkA ops r removed added =
        glue r (specToks mkE mkR mkA (removed.map .remove ++ added.map .add ++ ops)) := by
  intro ops
  induction ops with
  | nil =>
      intro removed added r _ _
      have h := specToks_removes_adds mkE mkR mkA removed added [] rfl rfl rfl rfl
      have h2 : specToks mkE mkR mkA [] = [] := by simp [specToks]
      simp only [List.append_nil, h2] at h ⊢
      rw [h]
      simp only [emitLoop]
      exact flushRuns_glue mkR mkA r removed added
  | cons op rest ih =>
      intro removed added r hcanon hlead
      cases op with
      | equal w =>
          simp only [emitLoop]
          rw [flushRuns_glue mkR mkA r removed added,
            glue_single (glue r (flushToks mkR mkA removed added)) (mkE w),
            ih [] [] _ (canon_cons _ _ hcanon) (by simp)]
          simp only [List.map_nil, List.nil_append]
          rw [← glue_append, ← glue_append,
            specToks_removes_adds mkE mkR mkA removed added (.equal w :: rest) rfl rfl rfl rfl]
          simp [specToks]
      | remove w =>
          obtain rfl : added = [] := by
            by_contra hne
            exact noLeadRemove_head w rest (hlead hne)
          simp only [emitLoop]
          rw [ih (removed ++ [w]) [] r (canon_cons _ _ hcanon) (by simp)]
          congr 1
          simp
      | add w =>
          have hnl : NoLeadRemove rest := by
            cases added with
            | nil => exact canon_cons_add_noLeadRemove w rest hcanon
            | cons x xs => exact noLeadRemove_cons_add w rest (hlead (by simp))
          simp only [emitLoop]
          rw [ih removed (added ++ [w]) r (canon_cons _ _ hcanon) (fun _ => hnl)]
          congr 1
          simp

/-- `trim_end_matches('\n')` on the code text: drop all trailing newline
characters. -/
def trimEndNewlines (s : String) : String :=
  String.mk ((s.toList.reverse.dropWhile fun c => c = '\n').reverse)

mutual

/-- Whole-block removed wrapping, from `src/diff.rs` (fn wrap_block_removed). -/
def wrap_block_removed : Block → Block
  | .paragraph inlines => .paragraph [.strikethrough inlines]
  | .heading level content => .heading level [.strikethrough content]
  | .codeBlock _ code => .paragraph [.strikethrough [.code (trimEndNewlines code)]]
  | .blockQuote inner => .blockQuote (wrap_blocks_removed inner)
  | .list ordered start items => .list ordered start (wrap_items_removed items)
  | .thematicBreak => .paragraph [.strikethrough [.text "---"]]
  | .table alignments header rows =>
      .table alignments (header.map fun cell => [.strikethrough cell])
        (rows.map fun row => row.map fun cell => [.strikethrough cell])
  | .htmlBlock html => .paragraph [.strikethrough [.text html]]

/-- Elementwise removed wrapping of a block list. -/
def wrap_blocks_removed : List Block → List Block
  | [] => []
  | b :: bs => wrap_block_removed b :: wrap_blocks_removed bs

/-- Elementwise removed wrapping of list items. -/
def wrap_items_removed : List (List Block) → List (List Block)
  | [] => []
  | i :: is_ => wrap_blocks_removed i :: wrap_items_removed is_

end

mutual

/-- Whole-block added wrapping, from `src/diff.rs` (fn wrap_block_added). -/
def wrap_block_added : Block → Block
  | .paragraph inlines => .paragraph [.strong inlines]
  | .heading level content => .heading level [.strong content]
  | .codeBlock _ code => .paragraph [.strong [.code (trimEndNewlines code)]]
  | .blockQuote inner => .blockQuote (wrap_blocks_added inner)
  | .list ordered start items => .list ordered start (wrap_items_added items)
  | .thematicBreak => .paragraph [.strong [.text "---"]]
  | .table alignments header rows =>
      .table alignments (header.map fun cell => [.strong cell])
        (rows.map fun row => row.map fun cell => [.strong cell])
  | .htmlBlock html => .paragraph [.strong [.text html]]

/-- Elementwise added wrapping of a block list. -/
def wrap_blocks_added : List Block → List Block
  | [] => []
  | b :: bs => wrap_block_added b :: wrap_blocks_added bs

/-- Elementwise added wrapping of list items. -/
def wrap_items_added : List (List Block) → List (List Block)
  | [] => []
  | i :: is_ => wrap_blocks_added i :: wrap_items_added is_

end

theorem wrap_blocks_removed_eq_map (l : List Block) :
    wrap_blocks_removed l = l.map wrap_block_removed := by
  induction l with
  | nil => rfl
  | cons b bs ih => simp [wrap_blocks_removed, ih]

theorem wrap_items_removed_eq_map (l : List (List Block)) :
    wrap_items_removed l = l.map fun item => item.map wrap_block_removed := by
  induction l with
  | nil => rfl
  | cons i is_ ih => simp [wrap_items_removed, ih, wrap_blocks_removed_eq_map]

theorem wrap_blocks_added_eq_map (l : List Block) :
    wrap_blocks_added l = l.map wrap_block_added := by
  induction l with
  | nil => rfl
  | cons b bs ih => simp [wrap_blocks_added, ih]

theorem wrap_items_added_eq_map (l : List (List Block)) :
    wrap_items_added l = l.map fun item => item.map wrap_block_added := by
  induction l with
  | nil => rfl
  | cons i is_ ih => simp [wrap_items_added, ih, wrap_blocks_added_eq_map]

/-- Shape match used by the paired diff to pair a pending Remove with an Add,
from `src/diff.rs` (fn same_variant). -/
def same_variant : Block → Block → Bool
  | .paragraph _, .paragraph _ => true
  | .heading _ _, .heading _ _ => true
  | .blockQuote _, .blockQuote _ => true
  | .codeBlock _ _, .codeBlock _ _ => true
  | _, _ => false

/-- Word-level inline diff, from `src/diff.rs` (fn diff_inlines): flatten both
sides, split on whitespace, align, and emit Text words with run-collapsed
Strikethrough/Strong spans. -/
def diff_inlines (old new : List Inline) : List Inline :=
  emitLoop Inline.text (fun s => .strikethrough [.text s]) (fun s => .strong [.text s])
    (diff_sequences (split_whitespace (inline_text old)) (split_whitespace (inline_text new)))
    [] [] []

/-- The loop body of `diff_markdown_inline` in `src/diff.rs`, abstracted over
the paired-block differ `dbi`: keep Equal blocks, queue Removes, and on an Add
scan the pending queue for the first same-variant block (pair and remove it)
or flush the queue and wrap the Add; a trailing flush at the end. -/
def processOps (dbi : Block → Block → Block) :
    List (DiffOp Block) → List Block → List Block → List Block
  | [], result, pending => result ++ pending.map wrap_block_removed
  | .equal b :: rest, result, pending =>
      processOps dbi rest (result ++ pending.map wrap_block_removed ++ [b]) []
  | .remove b :: rest, result, pending => processOps dbi rest result (pending ++ [b])
  | .add b :: rest, result, pending =>
    match pending.findIdx? fun r => same_variant r b with
    | some idx =>
        processOps dbi rest (result ++ [dbi (pending.getD idx default) b])
          (pending.eraseIdx idx)
    | none =>
        processOps dbi rest
          (result ++ pending.map wrap_block_removed ++ [wrap_block_added b]) []

/-- Variant-specific paired diff, from `src/diff.rs` (fn diff_block_inline).

The BlockQuote branch of the source renders both inner block sequences back
to markdown text, recursively invokes `diff_markdown_inline` on the two
texts, and reparses the result; the render/parse round trip through the
external parser is modelled, per the spec round-trip invariant (spec §3), as
the identity on block sequences, so the recursion acts directly on the inner
block lists.  `fuel` bounds that recursion depth (it is consumed only by the
BlockQuote branch; inputs of quote-nesting depth below `fuel` never reach the
exhaustion fallback). -/
def diff_block_inline : Nat → Block → Block → Block
  | _, .paragraph oi, .paragraph ni => .paragraph (diff_inlines oi ni)
  | _, .heading lv oc, .heading _ nc => .heading lv (diff_inlines oc nc)
  | fuel + 1, .blockQuote oi, .blockQuote ni =>
      .blockQuote
        (processOps (fun a b => diff_block_inline fuel a b) (diff_sequences oi ni) [] [])
  | 0, .blockQuote oi, .blockQuote _ => wrap_block_removed (.blockQuote oi)
  | _, .codeBlock ol oc, .codeBlock nl nc =>
      if oc = nc ∧ ol = nl then .codeBlock nl nc
      else
        .paragraph
          (emitLoop Inline.code (fun s => .strikethrough [.code s])
            (fun s => .strong [.code s])
            (diff_sequences (split_whitespace oc) (split_whitespace nc)) [] [] [])
  | _, old, _ => wrap_block_removed old

/-- The paired (inline-aware) diff of `src/diff.rs` (fn diff_markdown_inline)
between the external parse and render steps: align the two block sequences
and run the pending-remove pairing loop. -/
def diff_markdown_inline_blocks (fuel : Nat) (old new : List Block) : List Block :=
  processOps (diff_block_inline fuel) (diff_sequences old new) [] []

/-- Payloads of the Equal ops, in output order. -/
def equalSide {α : Type} : List (DiffOp α) → List α
  | [] => []
  | .equal a :: rest => a :: equalSide rest
  | .remove _ :: rest => equalSide rest
  | .add _ :: rest => equalSide rest

/-- Payloads of the Remove ops, in output order. -/
def removesOf {α : Type} : List (DiffOp α) → List α
  | [] => []
  | .equal _ :: rest => removesOf rest
  | .remove a :: rest => a :: removesOf rest
  | .add _ :: rest => removesOf rest

/-- Payloads of the Add ops, in output order. -/
def addsOf {α : Type} : List (DiffOp α) → List α
  | [] => []
  | .equal _ :: rest => addsOf rest
  | .remove _ :: rest => addsOf rest
  | .add a :: rest => a :: addsOf rest

/-- C6: the backtracker favours Add over Remove: whenever the current
elements differ and `table[i][j-1] >= table[i-1][j]` (here
`lcsT i (j+1) <= lcsT (i+1) j` for the cell `(i+1, j+1)`), and always when
the old index is exhausted, an Add is emitted; on the concrete example
`diff([1,2,3,4,5],[1,3,4,6])` the output starts with Equal 1, reports the
changed region as Remove 5 then Add 6, and its Equal subsequence is exactly
`[1,3,4]`. -/
theorem diff_sequences_tiebreak {α : Type} [DecidableEq α] [Inhabited α]
    (old new : List α) :
    (∀ fuel j, backtrack old new (fuel + 1) 0 (j + 1) =
        .add (new.getD j default) :: backtrack old new fuel 0 j) ∧
    (∀ fuel i j, old[i]? ≠ new[j]? →
        lcsT old new i (j + 1) ≤ lcsT old new (i + 1) j →
        backtrack old new (fuel + 1) (i + 1) (j + 1) =
          .add (new.getD j default) :: backtrack old new fuel (i + 1) j) ∧
    diff_sequences [1, 2, 3, 4, 5] [1, 3, 4, 6] =
      [.equal 1, .remove 2, .equal 3, .equal 4, .remove 5, .add 6] ∧
    equalSide (diff_sequences [1, 2, 3, 4, 5] [1, 3, 4, 6]) = [1, 3, 4] := by
  refine ⟨fun fuel j => rfl, fun fuel i j h h2 => ?_, by decide, by decide⟩
  simp only [backtrack, if_neg h, if_pos h2]

/-- Witness for C6: a concrete unequal pair where the tie-break fires. -/
theorem diff_sequences_tiebreak_witness :
    (([1, 2] : List Nat)[0]? ≠ ([3] : List Nat)[0]?) ∧
    lcsT [1, 2] [3] 0 1 ≤ lcsT [1, 2] [3] 1 0 ∧
    backtrack [1, 2] [3] 1 1 1 = .add 3 :: backtrack [1, 2] [3] 0 1 0 :=
  ⟨by decide, by decide,
    (diff_sequences_tiebreak [1, 2] [3]).2.1 0 0 0 (by decide) (by decide)⟩

theorem findIdx?_first {α : Type} (p : α → Bool) :
    ∀ (l₁ : List α) (r : α) (l₂ : List α) (i : Nat),
      (∀ x ∈ l₁, p x = false) → p r = true →
      List.findIdx? p (l₁ ++ r :: l₂) i = some (i + l₁.length) := by
  intro l₁
  induction l₁ with
  | nil =>
      intro r l₂ i _ hr
      simp [List.findIdx?_cons, hr]
  | cons x l₁ ih =>
      intro r l₂ i h hr
      have hx : p x = false := h x (List.mem_cons_self _ _)
      simp only [List.cons_append, List.findIdx?_cons, hx, Bool.false_eq_true, if_false]
      rw [ih r l₂ (i + 1) (fun y hy => h y (List.mem_cons_of_mem _ hy)) hr]
      simp only [List.length_cons]
      congr 1
      omega

theorem getD_append_cons {α : Type} [Inhabited α] :
    ∀ (l₁ : List α) (r : α) (l₂ : List α), (l₁ ++ r :: l₂).getD l₁.length default = r := by
  intro l₁
  induction l₁ with
  | nil => intro r l₂; rfl
  | cons x l₁ ih => intro r l₂; simpa using ih r l₂

theorem eraseIdx_append_cons {α : Type} :
    ∀ (l₁ : List α) (r : α) (l₂ : List α), (l₁ ++ r :: l₂).eraseIdx l₁.length = l₁ ++ l₂ := by
  intro l₁
  induction l₁ with
  | nil => intro r l₂; rfl
  | cons x l₁ ih => intro r l₂; simpa using ih r l₂

/-- C2: on an Add op, the paired diff scans the pending remove queue in order
for the first block of matching shape (shape-match holds exactly for
Paragraph/Paragraph, Heading/Heading, BlockQuote/BlockQuote and
CodeBlock/CodeBlock, never for other variants or cross-variant pairs); a
found match is removed from the queue — earlier entries stay queued — and the
variant-specific inline diff is emitted in its place; with no match the whole
queue is flushed as removed-wrapped blocks and the added block is emitted
whole-added-wrapped. -/
theorem paired_diff_add_step :
    (∀ a b : Block, same_variant a b = true ↔
      ((∃ x y, a = .paragraph x ∧ b = .paragraph y) ∨
       (∃ la ca lb cb, a = .heading la ca ∧ b = .heading lb cb) ∨
       (∃ x y, a = .blockQuote x ∧ b = .blockQuote y) ∨
       (∃ ga ca gb cb, a = .codeBlock ga ca ∧ b = .codeBlock gb cb))) ∧
    (∀ fuel rest result (l₁ : List Block) r l₂ b,
      (∀ x ∈ l₁, same_variant x b = false) → same_variant r b = true →
      processOps (diff_block_inline fuel) (.add b :: rest) result (l₁ ++ r :: l₂) =
        processOps (diff_block_inline fuel) rest
          (result ++ [diff_block_inline fuel r b]) (l₁ ++ l₂)) ∧
    (∀ fuel rest result pending b,
      (∀ x ∈ pending, same_variant x b = false) →
      processOps (diff_block_inline fuel) (.add b :: rest) result pending =
        processOps (diff_block_inline fuel) rest
          (result ++ pending.map wrap_block_removed ++ [wrap_block_added b]) []) := by
  refine ⟨?_, ?_, ?_⟩
  · intro a b
    cases a <;> cases b <;> simp [same_variant]
  · intro fuel rest result l₁ r l₂ b h hr
    simp only [processOps]
    rw [findIdx?_first (fun x => same_variant x b) l₁ r l₂ 0 h hr]
    simp only [Nat.zero_add]
    rw [getD_append_cons, eraseIdx_append_cons]
  · intro fuel rest result pending b h
    simp only [processOps]
    rw [List.findIdx?_eq_none_iff.mpr h]

/-- Witness for C2: a three-entry queue where the second entry is the first
shape match; the earlier entry stays queued. -/
theorem paired_diff_add_step_witness :
    (∀ x ∈ ([Block.thematicBreak] : List Block),
        same_variant x (.paragraph [.text "hi"]) = false) ∧
    same_variant (Block.paragraph []) (.paragraph [.text "hi"]) = true ∧
    processOps (diff_block_inline 0) [.add (.paragraph [.text "hi"])] [.htmlBlock "x"]
        ([Block.thematicBreak] ++ Block.paragraph [] :: [Block.codeBlock Option.none "c"]) =
      processOps (diff_block_inline 0) []
        ([.htmlBlock "x"] ++ [diff_block_inline 0 (.paragraph []) (.paragraph [.text "hi"])])
        ([Block.thematicBreak] ++ [Block.codeBlock Option.none "c"]) := by
  refine ⟨?_, rfl, ?_⟩
  · intro x hx
    simp only [List.mem_singleton] at hx
    subst hx
    rfl
  · exact paired_diff_add_step.2.1 0 [] [.htmlBlock "x"] [Block.thematicBreak]
      (Block.paragraph []) [Block.codeBlock Option.none "c"] (.paragraph [.text "hi"])
      (by intro x hx; simp only [List.mem_singleton] at hx; subst hx; rfl) rfl

section SelfDiff

variable {α : Type} [DecidableEq α] [Inhabited α]

theorem backtrack_self (l : List α) :
    ∀ fuel k, k + k ≤ fuel → k ≤ l.length →
      backtrack l l fuel k k = ((l.take k).map DiffOp.equal).reverse := by
  intro fuel
  induction fuel with
  | zero =>
      intro k h _
      obtain rfl : k = 0 := by omega
      rfl
  | succ f ih =>
      intro k h hk
      cases k with
      | zero => rfl
      | succ k =>
          simp only [backtrack, if_pos rfl]
          rw [ih k (by omega) (by omega), take_succ_getD l k (by omega)]
          simp

/-- Aligning a sequence with itself yields all Equal ops, in order. -/
theorem diff_sequences_self (l : List α) : diff_sequences l l = l.map DiffOp.equal := by
  unfold diff_sequences
  rw [backtrack_self l (l.length + l.length) l.length (le_refl _) (le_refl _)]
  simp

end SelfDiff

theorem processOps_map_equal (dbi : Block → Block → Block) :
    ∀ (blocks : List Block) (result : List Block),
      processOps dbi (blocks.map DiffOp.equal) result [] = result ++ blocks := by
  intro blocks
  induction blocks with
  | nil => intro result; simp [processOps]
  | cons b bs ih =>
      intro result
      simp only [List.map_cons, processOps, List.map_nil, List.append_nil]
      rw [ih (result ++ [b])]
      simp

mutual

/-- Whether an inline tree contains a diff marker node — a Strong or
Strikethrough span (rendered as the `**` / `~~` markers by the renderer of
`src/ast.rs`). -/
def inlineHasMarker : Inline → Bool
  | .strong _ => true
  | .strikethrough _ => true
  | .emphasis l => inlinesHaveMarker l
  | .link _ _ c => inlinesHaveMarker c
  | .image _ _ a => inlinesHaveMarker a
  | _ => false

/-- Any marker node in an inline list. -/
def inlinesHaveMarker : List Inline → Bool
  | [] => false
  | x :: xs => inlineHasMarker x || inlinesHaveMarker xs

end

/-- Any marker node in a row of table cells. -/
def cellsHaveMarker : List (List Inline) → Bool
  | [] => false
  | c :: cs => inlinesHaveMarker c || cellsHaveMarker cs

/-- Any marker node in the table rows. -/
def rowsHaveMarker : List (List (List Inline)) → Bool
  | [] => false
  | r :: rs => cellsHaveMarker r || rowsHaveMarker rs

mutual

/-- Whether a block contains a Strong or Strikethrough span anywhere. -/
def blockHasMarker : Block → Bool
  | .paragraph l => inlinesHaveMarker l
  | .heading _ c => inlinesHaveMarker c
  | .blockQuote bs => blocksHaveMarker bs
  | .codeBlock _ _ => false
  | .list _ _ items => itemsHaveMarker items
  | .thematicBreak => false
  | .table _ header rows => cellsHaveMarker header || rowsHaveMarker rows
  | .htmlBlock _ => false

/-- Any marker node in a block list. -/
def blocksHaveMarker : List Block → Bool
  | [] => false
  | b :: bs => blockHasMarker b || blocksHaveMarker bs

/-- Any marker node in a list of items. -/
def itemsHaveMarker : List (List Block) → Bool
  | [] => false
  | i :: is_ => blocksHaveMarker i || itemsHaveMarker is_

end

/-- Whether a string ends in a newline (`ends_with('\n')`). -/
def endsWithNewline (s : String) : Bool :=
  match s.toList.getLast? with
  | some c => c = '\n'
  | _ => false

/-- `split('\n')`: split on newline characters, keeping empty segments. -/
def splitNlAux (cur : List Char) : List Char → List (List Char)
  | [] => [cur.reverse]
  | c :: rest =>
    if c = '\n' then cur.reverse :: splitNlAux [] rest else splitNlAux (c :: cur) rest

/-- `split('\n')` on a string. -/
def splitNewlines (s : String) : List String :=
  (splitNlAux [] s.toList).map fun l => String.mk l

mutual

/-- One inline of `render_inlines`, from `src/ast.rs`. -/
def renderInline : Inline → String
  | .text t => t
  | .code c => "`" ++ c ++ "`"
  | .emphasis inner => "*" ++ render_inlines inner ++ "*"
  | .strong inner => "**" ++ render_inlines inner ++ "**"
  | .strikethrough inner => "~~" ++ render_inlines inner ++ "~~"
  | .link url title content =>
      "[" ++ render_inlines content ++ "](" ++ url ++
        (if title.isEmpty then "" else " \"" ++ title ++ "\"") ++ ")"
  | .image url title alt =>
      "![" ++ render_inlines alt ++ "](" ++ url ++
        (if title.isEmpty then "" else " \"" ++ title ++ "\"") ++ ")"
  | .softBreak => "\n"
  | .hardBreak => "  \n"
  | .html h => h

/-- Inline rendering, from `src/ast.rs` (fn render_inlines): the text pushed
for an inline sequence. -/
def render_inlines : List Inline → String
  | [] => ""
  | i :: rest => renderInline i ++ render_inlines rest

end

/-- The `> `-prefixing of blockquote lines in `render_blocks`. -/
def renderQuoteLines : List String → String
  | [] => ""
  | line :: rest =>
    (if line.isEmpty then ">\n" else "> " ++ line ++ "\n") ++ renderQuoteLines rest

/-- The line layout of one list item in `render_blocks`: first line bare,
later blank lines bare, later nonempty lines indented two spaces. -/
def renderItemLines : Bool → List String → String
  | _, [] => ""
  | true, line :: rest => line ++ "\n" ++ renderItemLines false rest
  | false, line :: rest =>
    (if line.isEmpty then "\n" else "  " ++ line ++ "\n") ++ renderItemLines false rest

/-- The separator-row fragment per column alignment in `render_blocks`. -/
def alignSep : Alignment → String
  | .none => " --- |"
  | .left => " :-- |"
  | .center => " :-: |"
  | .right => " --: |"

/-- One table row, from `src/ast.rs` (fn render_table_row). -/
def render_table_row (cells : List (List Inline)) : String :=
  "|" ++ String.join (cells.map fun cell => " " ++ render_inlines cell ++ " |") ++ "\n"

mutual

/-- The block loop of `render_blocks` from `src/ast.rs`: `first` is true for
the first block (the source checks `i > 0`), and a newline is inserted
between blocks when the accumulated output does not already end in one. -/
def renderBlocksAux : Bool → String → List Block → String
  | _, out, [] => out
  | first, out, b :: bs =>
    let out1 := if !first && !out.isEmpty && !endsWithNewline out then out ++ "\n" else out
    renderBlocksAux false (out1 ++ renderBlock b) bs

/-- The text pushed for a single block by `render_blocks` in `src/ast.rs`. -/
def renderBlock : Block → String
  | .paragraph inlines => render_inlines inlines ++ "\n\n"
  | .heading level content =>
      String.mk (List.replicate level '#') ++ " " ++ render_inlines content ++ "\n\n"
  | .blockQuote inner =>
      let innerMd := renderBlocksAux true "" inner
      renderQuoteLines (splitNewlines (trimEndNewlines innerMd)) ++ "\n"
  | .codeBlock language code =>
      "```" ++ (match language with | some lang => lang | _ => "") ++ "\n" ++ code ++
        (if endsWithNewline code then "" else "\n") ++ "```\n\n"
  | .list ordered start items =>
      renderListItems ordered (start.getD 1) items ++ "\n"
  | .thematicBreak => "---\n\n"
  | .table alignments header rows =>
      render_table_row header ++
        ("|" ++ String.join (alignments.map alignSep) ++ "\n") ++
        String.join (rows.map render_table_row) ++ "\n"
  | .htmlBlock html => html ++ (if endsWithNewline html then "" else "\n") ++ "\n"

/-- The item loop of the List branch of `render_blocks`: `num` is the running
ordered-list number (`start_num + j`). -/
def renderListItems (ordered : Bool) (num : Nat) : List (List Block) → String
  | [] => ""
  | item :: rest =>
    let itemMd := renderBlocksAux true "" item
    (if ordered then toString num ++ ". " else "- ") ++
      renderItemLines true (splitNewlines (trimEndNewlines itemMd)) ++
      renderListItems ordered (num + 1) rest

end

/-- Render a block tree back to markdown, from `src/ast.rs`
(fn render_to_markdown). -/
def render_to_markdown (blocks : List Block) : String :=
  renderBlocksAux true "" blocks

/-- Two adjacent occurrences of `c` anywhere in the character list. -/
def containsDouble (c : Char) : List Char → Bool
  | a :: b :: rest => (a = c && b = c) || containsDouble c (b :: rest)
  | _ => false

/-- A rendered string contains a Strong (`**`) or Strikethrough (`~~`)
marker. -/
def renderedHasMarker (s : String) : Bool :=
  containsDouble '*' s.toList || containsDouble '~' s.toList

/-- Counterexample to C5 as stated: for an input whose own tree contains a
Strong span, the self-diff output (which equals the input tree) renders to
text containing a `**` marker, so the rendering does not have zero Strong
markers. -/
theorem paired_diff_self_markers_counterexample :
    diff_markdown_inline_blocks 1 [Block.paragraph [.strong [.text "hi"]]]
        [Block.paragraph [.strong [.text "hi"]]] =
      [Block.paragraph [.strong [.text "hi"]]] ∧
    blocksHaveMarker [Block.paragraph [.strong [.text "hi"]]] = true ∧
    renderedHasMarker
      (render_to_markdown
        (diff_markdown_inline_blocks 1 [Block.paragraph [.strong [.text "hi"]]]
          [Block.paragraph [.strong [.text "hi"]]])) = true := by
  have htree : diff_markdown_inline_blocks 1 [Block.paragraph [.strong [.text "hi"]]]
      [Block.paragraph [.strong [.text "hi"]]] =
      [Block.paragraph [.strong [.text "hi"]]] := by
    unfold diff_markdown_inline_blocks
    rw [diff_sequences_self, processOps_map_equal]
    simp
  refine ⟨htree, ?_, ?_⟩
  · simp [blocksHaveMarker, blockHasMarker, inlinesHaveMarker, inlineHasMarker]
  · rw [htree]
    have h : render_to_markdown [Block.paragraph [.strong [.text "hi"]]] = "**hi**\n\n" := by
      simp [render_to_markdown, renderBlocksAux, renderBlock, render_inlines, renderInline]
    rw [h]
    decide

/-- C5 (amended): the paired diff of a block tree with itself is the tree
itself — no Strikethrough or Strong node is introduced — so it renders to
exactly the input's rendering and re-parses to the input tree under the
parser round-trip contract; the rendered output has zero markers whenever
the input tree itself is marker-free. -/
theorem diff_markdown_inline_self (fuel : Nat) (blocks : List Block) :
    diff_markdown_inline_blocks fuel blocks blocks = blocks ∧
    render_to_markdown (diff_markdown_inline_blocks fuel blocks blocks) =
      render_to_markdown blocks ∧
    (blocksHaveMarker blocks = false →
      blocksHaveMarker (diff_markdown_inline_blocks fuel blocks blocks) = false) := by
  have h : diff_markdown_inline_blocks fuel blocks blocks = blocks := by
    unfold diff_markdown_inline_blocks
    rw [diff_sequences_self, processOps_map_equal]
    simp
  exact ⟨h, by rw [h], fun hm => by rw [h]; exact hm⟩

/-- Witness for C5 (amended) at a concrete marker-free input. -/
theorem diff_markdown_inline_self_witness :
    blocksHaveMarker [Block.paragraph [.text "hi"]] = false ∧
    blocksHaveMarker
      (diff_markdown_inline_blocks 1 [Block.paragraph [.text "hi"]]
        [Block.paragraph [.text "hi"]]) = false := by
  have h0 : blocksHaveMarker [Block.paragraph [.text "hi"]] = false := by
    simp [blocksHaveMarker, blockHasMarker, inlinesHaveMarker, inlineHasMarker]
  exact ⟨h0, (diff_markdown_inline_self 1 [Block.paragraph [.text "hi"]]).2.2 h0⟩

theorem emitLoop_diff_eq (mkE mkR mkA : String → Inline) (ws1 ws2 : List String) :
    emitLoop mkE mkR mkA (diff_sequences ws1 ws2) [] [] [] =
      glue [] (specToks mkE mkR mkA (diff_sequences ws1 ws2)) := by
  rw [emitLoop_spec mkE mkR mkA _ [] [] [] (diff_sequences_canon _ _) (by simp)]
  simp

/-- C3: the word-level inline diff renders, space-separated, one Text token
per Equal word, one Strikethrough span of the space-joined run per maximal
Remove run and one Strong span per maximal Add run (`specToks` on a `Canon`
op list); pending removed runs are flushed before pending added runs at each
transition (`flushRuns` = removed-tokens-then-added-tokens); and paired
Paragraph and Heading diffs emit `diff_inlines` of the two inline contents,
a Heading keeping the old node's level. -/
theorem diff_inlines_spec (old new : List Inline) :
    (diff_inlines old new =
      glue []
        (specToks Inline.text (fun s => .strikethrough [.text s])
          (fun s => .strong [.text s])
          (diff_sequences (split_whitespace (inline_text old))
            (split_whitespace (inline_text new)))) ∧
     Canon (diff_sequences (split_whitespace (inline_text old))
        (split_whitespace (inline_text new)))) ∧
    (∀ r removed added,
      flushRuns (fun s => .strikethrough [.text s]) (fun s => .strong [.text s])
          r removed added =
        glue r (flushToks (fun s => .strikethrough [.text s])
          (fun s => .strong [.text s]) removed added)) ∧
    (∀ fuel oi ni, diff_block_inline fuel (.paragraph oi) (.paragraph ni) =
        .paragraph (diff_inlines oi ni)) ∧
    (∀ fuel lv oc lv2 nc, diff_block_inline fuel (.heading lv oc) (.heading lv2 nc) =
        .heading lv (diff_inlines oc nc)) := by
  refine ⟨⟨?_, diff_sequences_canon _ _⟩, fun r removed added => flushRuns_glue _ _ _ _ _,
    ?_, ?_⟩
  · unfold diff_inlines
    exact emitLoop_diff_eq _ _ _ _ _
  · intro fuel oi ni
    cases fuel <;> simp [diff_block_inline]
  · intro fuel lv oc lv2 nc
    cases fuel <;> simp [diff_block_inline]

/-- C4: a paired CodeBlock diff returns the new block unchanged when both
language and code text agree, and otherwise emits a Paragraph (not a
CodeBlock) of space-separated Code spans: one per Equal word, one
Strikethrough-wrapped Code span of the space-joined run per maximal Remove
run, one Strong-wrapped Code span per maximal Add run. -/
theorem diff_block_inline_codeblock (fuel : Nat) (ol : Option String) (oc : String)
    (nl : Option String) (nc : String) :
    diff_block_inline fuel (.codeBlock ol oc) (.codeBlock nl nc) =
      (if oc = nc ∧ ol = nl then Block.codeBlock nl nc
       else
        .paragraph
          (glue []
            (specToks Inline.code (fun s => .strikethrough [.code s])
              (fun s => .strong [.code s])
              (diff_sequences (split_whitespace oc) (split_whitespace nc))))) ∧
    Canon (diff_sequences (split_whitespace oc) (split_whitespace nc)) := by
  refine ⟨?_, diff_sequences_canon _ _⟩
  by_cases h : oc = nc ∧ ol = nl
  · cases fuel <;> simp [diff_block_inline, h]
  · cases fuel <;> simp [diff_block_inline, h, emitLoop_diff_eq]

/-- C7: the plain-text flattener: Text and Html contribute their literal
content, Code contributes its content wrapped in backticks, the five
container spans contribute only the flattened text of their children
(formatting and URLs dropped), and each soft or hard break contributes one
space. -/
theorem inline_text_spec :
    inline_text [] = "" ∧
    (∀ t rest, inline_text (.text t :: rest) = t ++ inline_text rest) ∧
    (∀ h rest, inline_text (.html h :: rest) = h ++ inline_text rest) ∧
    (∀ c rest, inline_text (.code c :: rest) = "`" ++ c ++ "`" ++ inline_text rest) ∧
    (∀ inner rest, inline_text (.emphasis inner :: rest) =
      inline_text inner ++ inline_text rest) ∧
    (∀ inner rest, inline_text (.strong inner :: rest) =
      inline_text inner ++ inline_text rest) ∧
    (∀ inner rest, inline_text (.strikethrough inner :: rest) =
      inline_text inner ++ inline_text rest) ∧
    (∀ url title content rest, inline_text (.link url title content :: rest) =
      inline_text content ++ inline_text rest) ∧
    (∀ url title alt rest, inline_text (.image url title alt :: rest) =
      inline_text alt ++ inline_text rest) ∧
    (∀ rest, inline_text (.softBreak :: rest) = " " ++ inline_text rest) ∧
    (∀ rest, inline_text (.hardBreak :: rest) = " " ++ inline_text rest) := by
  refine ⟨?_, ?_, ?_, ?_, ?_, ?_, ?_, ?_, ?_, ?_, ?_⟩ <;> intros <;>
    simp [inline_text]

/-- C8: whole-block removed wrapping per variant, and added wrapping as its
exact mirror with Strong substituted for Strikethrough. -/
theorem wrap_block_spec :
    (∀ inlines, wrap_block_removed (.paragraph inlines) =
      .paragraph [.strikethrough inlines]) ∧
    (∀ lv c, wrap_block_removed (.heading lv c) = .heading lv [.strikethrough c]) ∧
    (∀ lang code, wrap_block_removed (.codeBlock lang code) =
      .paragraph [.strikethrough [.code (trimEndNewlines code)]]) ∧
    (∀ inner, wrap_block_removed (.blockQuote inner) =
      .blockQuote (inner.map wrap_block_removed)) ∧
    (∀ o s items, wrap_block_removed (.list o s items) =
      .list o s (items.map fun item => item.map wrap_block_removed)) ∧
    (wrap_block_removed .thematicBreak = .paragraph [.strikethrough [.text "---"]]) ∧
    (∀ aligns header rows, wrap_block_removed (.table aligns header rows) =
      .table aligns (header.map fun cell => [.strikethrough cell])
        (rows.map fun row => row.map fun cell => [.strikethrough cell])) ∧
    (∀ h, wrap_block_removed (.htmlBlock h) = .paragraph [.strikethrough [.text h]]) ∧
    (∀ inlines, wrap_block_added (.paragraph inlines) = .paragraph [.strong inlines]) ∧
    (∀ lv c, wrap_block_added (.heading lv c) = .heading lv [.strong c]) ∧
    (∀ lang code, wrap_block_added (.codeBlock lang code) =
      .paragraph [.strong [.code (trimEndNewlines code)]]) ∧
    (∀ inner, wrap_block_added (.blockQuote inner) =
      .blockQuote (inner.map wrap_block_added)) ∧
    (∀ o s items, wrap_block_added (.list o s items) =
      .list o s (items.map fun item => item.map wrap_block_added)) ∧
    (wrap_block_added .thematicBreak = .paragraph [.strong [.text "---"]]) ∧
    (∀ aligns header rows, wrap_block_added (.table aligns header rows) =
      .table aligns (header.map fun cell => [.strong cell])
        (rows.map fun row => row.map fun cell => [.strong cell])) ∧
    (∀ h, wrap_block_added (.htmlBlock h) = .paragraph [.strong [.text h]]) := by
  refine ⟨?_, ?_, ?_, ?_, ?_, ?_, ?_, ?_, ?_, ?_, ?_, ?_, ?_, ?_, ?_, ?_⟩ <;> intros <;>
    simp [wrap_block_removed, wrap_block_added, wrap_blocks_removed_eq_map,
      wrap_items_removed_eq_map, wrap_blocks_added_eq_map, wrap_items_added_eq_map]

/-- A well-formed word token: nonempty and whitespace-free. -/
def wfWord (w : String) : Prop :=
  w.toList ≠ [] ∧ ∀ c ∈ w.toList, c.isWhitespace = false

theorem splitWhitespaceAux_wf :
    ∀ (l cur : List Char), (∀ c ∈ cur, c.isWhitespace = false) →
      ∀ w ∈ splitWhitespaceAux cur l, w ≠ [] ∧ ∀ c ∈ w, c.isWhitespace = false := by
  intro l
  induction l with
  | nil =>
      intro cur hcur w hw
      simp only [splitWhitespaceAux] at hw
      by_cases h : cur.isEmpty = true
      · rw [if_pos h] at hw
        simp at hw
      · rw [if_neg h] at hw
        simp only [List.mem_singleton] at hw
        subst hw
        refine ⟨by simpa [List.isEmpty_iff] using h, fun c hc => hcur c (by simpa using hc)⟩
  | cons c rest ih =>
      intro cur hcur w hw
      simp only [splitWhitespaceAux] at hw
      by_cases hws : c.isWhitespace
      · rw [if_pos hws] at hw
        by_cases hcurE : cur.isEmpty
        · rw [if_pos hcurE] at hw
          exact ih [] (by simp) w hw
        · rw [if_neg hcurE] at hw
          rcases List.mem_cons.mp hw with hw | hw
          · subst hw
            refine ⟨by simpa [List.isEmpty_iff] using hcurE,
              fun d hd => hcur d (by simpa using hd)⟩
          · exact ih [] (by simp) w hw
      · rw [if_neg hws] at hw
        refine ih (c :: cur) ?_ w hw
        intro d hd
        rcases List.mem_cons.mp hd with rfl | hd
        · simpa using hws
        · exact hcur d hd

theorem split_whitespace_wf (s : String) : ∀ w ∈ split_whitespace s, wfWord w := by
  intro w hw
  simp only [split_whitespace, List.mem_map] at hw
  obtain ⟨lw, hlw, rfl⟩ := hw
  obtain ⟨h1, h2⟩ := splitWhitespaceAux_wf s.toList [] (by simp) lw hlw
  exact ⟨by simpa using h1, by simpa using h2⟩

theorem string_toList_append (a b : String) : (a ++ b).toList = a.toList ++ b.toList := by
  cases a
  cases b
  rfl

theorem string_mk_toList (s : String) : String.mk s.toList = s := by
  cases s
  rfl

theorem splitWhitespaceAux_word :
    ∀ (w l cur : List Char), (∀ c ∈ w, c.isWhitespace = false) →
      splitWhitespaceAux cur (w ++ l) = splitWhitespaceAux (w.reverse ++ cur) l := by
  intro w
  induction w with
  | nil => intro l cur _; simp
  | cons c w ih =>
      intro l cur h
      have hc : c.isWhitespace = false := h c (List.mem_cons_self _ _)
      simp only [List.cons_append, splitWhitespaceAux, hc, Bool.false_eq_true, if_false,
        List.append_eq]
      rw [ih l (c :: cur) fun d hd => h d (List.mem_cons_of_mem _ hd)]
      simp

theorem splitWhitespaceAux_joinSp :
    ∀ ws : List String, (∀ w ∈ ws, wfWord w) →
      splitWhitespaceAux [] (joinSp ws).toList = ws.map String.toList := by
  intro ws
  induction ws with
  | nil => intro _; rfl
  | cons w ws ih =>
      intro h
      have hw := h w (List.mem_cons_self _ _)
      have hrevne : w.toList.reverse.isEmpty = false := by
        rw [List.isEmpty_eq_false_iff_exists_mem]
        obtain ⟨c, hc⟩ := List.exists_mem_of_ne_nil _ hw.1
        exact ⟨c, by simpa using hc⟩
      cases ws with
      | nil =>
          show splitWhitespaceAux [] (joinSp [w]).toList = [w.toList]
          have : (joinSp [w]).toList = w.toList ++ [] := by simp [joinSp]
          rw [this, splitWhitespaceAux_word w.toList [] [] hw.2]
          simp only [List.append_nil, splitWhitespaceAux, hrevne, Bool.false_eq_true, if_false]
          simp
      | cons v ws' =>
          have hjoin : (joinSp (w :: v :: ws')).toList =
              w.toList ++ (' ' :: (joinSp (v :: ws')).toList) := by
            show (w ++ " " ++ joinSp (v :: ws')).toList = _
            rw [string_toList_append, string_toList_append]
            simp
          rw [hjoin, splitWhitespaceAux_word w.toList _ [] hw.2]
          simp only [List.append_nil, splitWhitespaceAux]
          rw [if_pos (by decide : (' ' : Char).isWhitespace = true),
            if_neg (by rw [hrevne]; simp)]
          rw [ih fun x hx => h x (List.mem_cons_of_mem _ hx)]
          simp

theorem split_whitespace_joinSp (ws : List String) (h : ∀ w ∈ ws, wfWord w) :
    split_whitespace (joinSp ws) = ws := by
  unfold split_whitespace
  rw [splitWhitespaceAux_joinSp ws h, List.map_map]
  have : (String.mk ∘ String.toList) = id := by
    funext s
    exact string_mk_toList s
  rw [this, List.map_id]

/-- A single well-formed word splits to itself. -/
theorem split_whitespace_single (w : String) (h : wfWord w) :
    split_whitespace w = [w] := by
  have := split_whitespace_joinSp [w] (by intro x hx; simpa using (by simpa using hx) ▸ h)
  simpa [joinSp] using this

/-- Words of the plain (unmarked) Text tokens of an emitted inline list. -/
def plainWords : List Inline → List String
  | [] => []
  | .text t :: rest => split_whitespace t ++ plainWords rest
  | _ :: rest => plainWords rest

/-- Words inside the Strikethrough spans of an emitted inline list. -/
def struckWords : List Inline → List String
  | [] => []
  | .strikethrough l :: rest => split_whitespace (inline_text l) ++ struckWords rest
  | _ :: rest => struckWords rest

/-- Words inside the Strong spans of an emitted inline list. -/
def boldWords : List Inline → List String
  | [] => []
  | .strong l :: rest => split_whitespace (inline_text l) ++ boldWords rest
  | _ :: rest => boldWords rest

theorem plainWords_cons (t : Inline) (l : List Inline) :
    plainWords (t :: l) =
      (match t with | .text s => split_whitespace s | _ => []) ++ plainWords l := by
  cases t <;> simp [plainWords]

theorem struckWords_cons (t : Inline) (l : List Inline) :
    struckWords (t :: l) =
      (match t with
        | .strikethrough inner => split_whitespace (inline_text inner)
        | _ => []) ++ struckWords l := by
  cases t <;> simp [struckWords]

theorem boldWords_cons (t : Inline) (l : List Inline) :
    boldWords (t :: l) =
      (match t with
        | .strong inner => split_whitespace (inline_text inner)
        | _ => []) ++ boldWords l := by
  cases t <;> simp [boldWords]

theorem split_whitespace_space : split_whitespace " " = [] := rfl

theorem plainWords_sepList (toks : List Inline) :
    plainWords (sepList toks) = plainWords toks := by
  induction toks with
  | nil => rfl
  | cons t ts ih =>
      simp only [sepList]
      rw [plainWords_cons (Inline.text " "), plainWords_cons t, plainWords_cons t, ih]
      simp [split_whitespace_space]

theorem struckWords_sepList (toks : List Inline) :
    struckWords (sepList toks) = struckWords toks := by
  induction toks with
  | nil => rfl
  | cons t ts ih =>
      simp only [sepList]
      rw [struckWords_cons (Inline.text " "), struckWords_cons t, struckWords_cons t, ih]
      simp

theorem boldWords_sepList (toks : List Inline) :
    boldWords (sepList toks) = boldWords toks := by
  induction toks with
  | nil => rfl
  | cons t ts ih =>
      simp only [sepList]
      rw [boldWords_cons (Inline.text " "), boldWords_cons t, boldWords_cons t, ih]
      simp

theorem plainWords_glue (toks : List Inline) : plainWords (glue [] toks) = plainWords toks := by
  cases toks with
  | nil => rfl
  | cons t ts =>
      show plainWords (t :: sepList ts) = _
      rw [plainWords_cons, plainWords_cons, plainWords_sepList]

theorem struckWords_glue (toks : List Inline) :
    struckWords (glue [] toks) = struckWords toks := by
  cases toks with
  | nil => rfl
  | cons t ts =>
      show struckWords (t :: sepList ts) = _
      rw [struckWords_cons, struckWords_cons, struckWords_sepList]

theorem boldWords_glue (toks : List Inline) : boldWords (glue [] toks) = boldWords toks := by
  cases toks with
  | nil => rfl
  | cons t ts =>
      show boldWords (t :: sepList ts) = _
      rw [boldWords_cons, boldWords_cons, boldWords_sepList]

theorem takeRemoves_append_removesOf (l : List (DiffOp String)) :
    takeRemoves l ++ removesOf (dropRemoves l) = removesOf l := by
  induction l with
  | nil => rfl
  | cons op rest ih => cases op <;> simp [takeRemoves, dropRemoves, removesOf, ih]

theorem takeAdds_append_addsOf (l : List (DiffOp String)) :
    takeAdds l ++ addsOf (dropAdds l) = addsOf l := by
  induction l with
  | nil => rfl
  | cons op rest ih => cases op <;> simp [takeAdds, dropAdds, addsOf, ih]

theorem equalSide_dropRemoves (l : List (DiffOp String)) :
    equalSide (dropRemoves l) = equalSide l := by
  induction l with
  | nil => rfl
  | cons op rest ih => cases op <;> simp [dropRemoves, equalSide, ih]

theorem equalSide_dropAdds (l : List (DiffOp String)) :
    equalSide (dropAdds l) = equalSide l := by
  induction l with
  | nil => rfl
  | cons op rest ih => cases op <;> simp [dropAdds, equalSide, ih]

theorem addsOf_dropRemoves (l : List (DiffOp String)) :
    addsOf (dropRemoves l) = addsOf l := by
  induction l with
  | nil => rfl
  | cons op rest ih => cases op <;> simp [dropRemoves, addsOf, ih]

theorem removesOf_dropAdds (l : List (DiffOp String)) :
    removesOf (dropAdds l) = removesOf l := by
  induction l with
  | nil => rfl
  | cons op rest ih => cases op <;> simp [dropAdds, removesOf, ih]

theorem mem_dropRemoves {op : DiffOp String} :
    ∀ {l : List (DiffOp String)}, op ∈ dropRemoves l → op ∈ l := by
  intro l
  induction l with
  | nil => intro h; simpa [dropRemoves] using h
  | cons x rest ih =>
      intro h
      cases x <;> simp only [dropRemoves] at h
      · exact h
      · exact List.mem_cons_of_mem _ (ih h)
      · exact h

theorem mem_dropAdds {op : DiffOp String} :
    ∀ {l : List (DiffOp String)}, op ∈ dropAdds l → op ∈ l := by
  intro l
  induction l with
  | nil => intro h; simpa [dropAdds] using h
  | cons x rest ih =>
      intro h
      cases x <;> simp only [dropAdds] at h
      · exact h
      · exact h
      · exact List.mem_cons_of_mem _ (ih h)

theorem mem_takeRemoves {w : String} :
    ∀ {l : List (DiffOp String)}, w ∈ takeRemoves l → DiffOp.remove w ∈ l := by
  intro l
  induction l with
  | nil => intro h; simp [takeRemoves] at h
  | cons x rest ih =>
      intro h
      cases x with
      | remove a =>
          simp only [takeRemoves, List.mem_cons] at h
          rcases h with rfl | h
          · exact List.mem_cons_self _ _
          · exact List.mem_cons_of_mem _ (ih h)
      | equal a => simp [takeRemoves] at h
      | add a => simp [takeRemoves] at h

theorem mem_takeAdds {w : String} :
    ∀ {l : List (DiffOp String)}, w ∈ takeAdds l → DiffOp.add w ∈ l := by
  intro l
  induction l with
  | nil => intro h; simp [takeAdds] at h
  | cons x rest ih =>
      intro h
      cases x with
      | add a =>
          simp only [takeAdds, List.mem_cons] at h
          rcases h with rfl | h
          · exact List.mem_cons_self _ _
          · exact List.mem_cons_of_mem _ (ih h)
      | equal a => simp [takeAdds] at h
      | remove a => simp [takeAdds] at h

/-- `w` is some op's payload in `ops`. -/
def wordOf (w : String) (ops : List (DiffOp String)) : Prop :=
  DiffOp.equal w ∈ ops ∨ DiffOp.remove w ∈ ops ∨ DiffOp.add w ∈ ops

theorem string_append_empty (s : String) : s ++ "" = s := by
  cases s
  show String.mk _ = String.mk _
  simp [String.append]

theorem inline_text_single_text (s : String) : inline_text [.text s] = s := by
  simp [inline_text, string_append_empty]

theorem words_specToks_text :
    ∀ (n : Nat) (ops : List (DiffOp String)), ops.length ≤ n →
      (∀ w, wordOf w ops → wfWord w) →
      plainWords (specToks Inline.text (fun s => .strikethrough [.text s])
          (fun s => .strong [.text s]) ops) = equalSide ops ∧
      struckWords (specToks Inline.text (fun s => .strikethrough [.text s])
          (fun s => .strong [.text s]) ops) = removesOf ops ∧
      boldWords (specToks Inline.text (fun s => .strikethrough [.text s])
          (fun s => .strong [.text s]) ops) = addsOf ops := by
  intro n
  induction n with
  | zero =>
      intro ops h _
      obtain rfl : ops = [] := List.length_eq_zero.mp (by omega)
      refine ⟨?_, ?_, ?_⟩ <;> simp [specToks, plainWords, struckWords, boldWords,
        equalSide, removesOf, addsOf]
  | succ n ih =>
      intro ops hlen hwf
      cases ops with
      | nil =>
          refine ⟨?_, ?_, ?_⟩ <;> simp [specToks, plainWords, struckWords, boldWords,
            equalSide, removesOf, addsOf]
      | cons op rest =>
          cases op with
          | equal w =>
              have hw : wfWord w := hwf w (Or.inl (List.mem_cons_self _ _))
              have hrest := ih rest (by simpa using hlen) fun w' hw' => hwf w' (by
                rcases hw' with h | h | h
                · exact Or.inl (List.mem_cons_of_mem _ h)
                · exact Or.inr (Or.inl (List.mem_cons_of_mem _ h))
                · exact Or.inr (Or.inr (List.mem_cons_of_mem _ h)))
              simp only [specToks]
              rw [plainWords_cons, struckWords_cons, boldWords_cons]
              refine ⟨?_, ?_, ?_⟩
              · simp only [equalSide, hrest.1, split_whitespace_single w hw]
                rfl
              · simp only [removesOf, hrest.2.1]
                rfl
              · simp only [addsOf, hrest.2.2]
                rfl
          | remove w =>
              have hw : wfWord w := hwf w (Or.inr (Or.inl (List.mem_cons_self _ _)))
              have hdrop := ih (dropRemoves rest)
                (by have := dropRemoves_length rest; simp at hlen ⊢; omega)
                (fun w' hw' => hwf w' (by
                  rcases hw' with h | h | h
                  · exact Or.inl (List.mem_cons_of_mem _ (mem_dropRemoves h))
                  · exact Or.inr (Or.inl (List.mem_cons_of_mem _ (mem_dropRemoves h)))
                  · exact Or.inr (Or.inr (List.mem_cons_of_mem _ (mem_dropRemoves h)))))
              have hrun : ∀ x ∈ w :: takeRemoves rest, wfWord x := by
                intro x hx
                rcases List.mem_cons.mp hx with rfl | hx
                · exact hw
                · exact hwf x (Or.inr (Or.inl
                    (List.mem_cons_of_mem _ (mem_takeRemoves hx))))
              simp only [specToks]
              rw [plainWords_cons, struckWords_cons, boldWords_cons]
              refine ⟨?_, ?_, ?_⟩
              · simp only [hdrop.1, equalSide_dropRemoves, equalSide]
                rfl
              · simp only [hdrop.2.1, inline_text_single_text,
                  split_whitespace_joinSp _ hrun]
                show (w :: takeRemoves rest) ++ removesOf (dropRemoves rest) = _
                rw [List.cons_append, takeRemoves_append_removesOf]
                rfl
              · simp only [hdrop.2.2, addsOf_dropRemoves, addsOf]
                rfl
          | add w =>
              have hw : wfWord w := hwf w (Or.inr (Or.inr (List.mem_cons_self _ _)))
              have hdrop := ih (dropAdds rest)
                (by have := dropAdds_length rest; simp at hlen ⊢; omega)
                (fun w' hw' => hwf w' (by
                  rcases hw' with h | h | h
                  · exact Or.inl (List.mem_cons_of_mem _ (mem_dropAdds h))
                  · exact Or.inr (Or.inl (List.mem_cons_of_mem _ (mem_dropAdds h)))
                  · exact Or.inr (Or.inr (List.mem_cons_of_mem _ (mem_dropAdds h)))))
              have hrun : ∀ x ∈ w :: takeAdds rest, wfWord x := by
                intro x hx
                rcases List.mem_cons.mp hx with rfl | hx
                · exact hw
                · exact hwf x (Or.inr (Or.inr
                    (List.mem_cons_of_mem _ (mem_takeAdds hx))))
              simp only [specToks]
              rw [plainWords_cons, struckWords_cons, boldWords_cons]
              refine ⟨?_, ?_, ?_⟩
              · simp only [hdrop.1, equalSide_dropAdds, equalSide]
                rfl
              · simp only [hdrop.2.1, removesOf_dropAdds, removesOf]
                rfl
              · simp only [hdrop.2.2, inline_text_single_text,
                  split_whitespace_joinSp _ hrun]
                show (w :: takeAdds rest) ++ addsOf (dropAdds rest) = _
                rw [List.cons_append, takeAdds_append_addsOf]
                rfl

theorem mem_oldSide_of_equal {α : Type} {w : α} :
    ∀ {ops : List (DiffOp α)}, DiffOp.equal w ∈ ops → w ∈ oldSide ops := by
  intro ops
  induction ops with
  | nil => intro h; simp at h
  | cons op rest ih =>
      intro h
      rcases List.mem_cons.mp h with heq | hmem
      · cases heq
        simp [oldSide]
      · cases op <;> simp only [oldSide] <;>
          first
          | exact List.mem_cons_of_mem _ (ih hmem)
          | exact ih hmem

theorem mem_oldSide_of_remove {α : Type} {w : α} :
    ∀ {ops : List (DiffOp α)}, DiffOp.remove w ∈ ops → w ∈ oldSide ops := by
  intro ops
  induction ops with
  | nil => intro h; simp at h
  | cons op rest ih =>
      intro h
      rcases List.mem_cons.mp h with heq | hmem
      · cases heq
        simp [oldSide]
      · cases op <;> simp only [oldSide] <;>
          first
          | exact List.mem_cons_of_mem _ (ih hmem)
          | exact ih hmem

theorem mem_newSide_of_add {α : Type} {w : α} :
    ∀ {ops : List (DiffOp α)}, DiffOp.add w ∈ ops → w ∈ newSide ops := by
  intro ops
  induction ops with
  | nil => intro h; simp at h
  | cons op rest ih =>
      intro h
      rcases List.mem_cons.mp h with heq | hmem
      · cases heq
        simp [newSide]
      · cases op <;> simp only [newSide] <;>
          first
          | exact List.mem_cons_of_mem _ (ih hmem)
          | exact ih hmem

theorem oldSide_multiset {α : Type} (ops : List (DiffOp α)) :
    (↑(oldSide ops) : Multiset α) = ↑(equalSide ops) + ↑(removesOf ops) := by
  induction ops with
  | nil => rfl
  | cons op rest ih =>
      cases op with
      | equal a =>
          simp only [oldSide, equalSide, removesOf, ← Multiset.cons_coe, ih,
            Multiset.cons_add]
      | remove a =>
          simp only [oldSide, equalSide, removesOf, ← Multiset.cons_coe, ih,
            Multiset.add_cons]
      | add a => simpa [oldSide, equalSide, removesOf] using ih

theorem newSide_multiset {α : Type} (ops : List (DiffOp α)) :
    (↑(newSide ops) : Multiset α) = ↑(equalSide ops) + ↑(addsOf ops) := by
  induction ops with
  | nil => rfl
  | cons op rest ih =>
      cases op with
      | equal a =>
          simp only [newSide, equalSide, addsOf, ← Multiset.cons_coe, ih,
            Multiset.cons_add]
      | add a =>
          simp only [newSide, equalSide, addsOf, ← Multiset.cons_coe, ih,
            Multiset.add_cons]
      | remove a => simpa [newSide, equalSide, addsOf] using ih

/-- C9: the multiset of plain output words plus the struck words is exactly
the old word stream, and plus the bold words exactly the new word stream —
the output words are the union of both streams with the common (Equal) part
written once; no word is dropped. -/
theorem diff_inlines_word_preservation (old new : List Inline) :
    ((plainWords (diff_inlines old new) : Multiset String) +
        (struckWords (diff_inlines old new) : Multiset String) =
      (split_whitespace (inline_text old) : Multiset String)) ∧
    ((plainWords (diff_inlines old new) : Multiset String) +
        (boldWords (diff_inlines old new) : Multiset String) =
      (split_whitespace (inline_text new) : Multiset String)) := by
  have hchar : diff_inlines old new =
      glue []
        (specToks Inline.text (fun s => .strikethrough [.text s])
          (fun s => .strong [.text s])
          (diff_sequences (split_whitespace (inline_text old))
            (split_whitespace (inline_text new)))) := by
    unfold diff_inlines
    exact emitLoop_diff_eq _ _ _ _ _
  have hwf : ∀ w, wordOf w (diff_sequences (split_whitespace (inline_text old))
      (split_whitespace (inline_text new))) → wfWord w := by
    intro w hw
    rcases hw with h | h | h
    · refine split_whitespace_wf (inline_text old) w ?_
      have := mem_oldSide_of_equal h
      rwa [diff_sequences_oldSide_eq] at this
    · refine split_whitespace_wf (inline_text old) w ?_
      have := mem_oldSide_of_remove h
      rwa [diff_sequences_oldSide_eq] at this
    · refine split_whitespace_wf (inline_text new) w ?_
      have := mem_newSide_of_add h
      rwa [diff_sequences_newSide_eq] at this
  obtain ⟨hp, hs, hb⟩ := words_specToks_text _ _ (le_refl _) hwf
  rw [hchar, plainWords_glue, struckWords_glue, boldWords_glue, hp, hs, hb]
  constructor
  · rw [← oldSide_multiset, diff_sequences_oldSide_eq]
  · rw [← newSide_multiset, diff_sequences_newSide_eq]

theorem mem_sepList {x : Inline} :
    ∀ {toks : List Inline}, x ∈ sepList toks → x ∈ toks ∨ x = .text " " := by
  intro toks
  induction toks with
  | nil => intro h; simp [sepList] at h
  | cons t ts ih =>
      intro h
      simp only [sepList, List.mem_cons] at h
      rcases h with rfl | rfl | h
      · exact Or.inr rfl
      · exact Or.inl (List.mem_cons_self _ _)
      · rcases ih h with h | h
        · exact Or.inl (List.mem_cons_of_mem _ h)
        · exact Or.inr h

theorem mem_glue_nil {x : Inline} {toks : List Inline} (h : x ∈ glue [] toks) :
    x ∈ toks ∨ x = .text " " := by
  cases toks with
  | nil => simp [glue] at h
  | cons t ts =>
      have h' : x ∈ t :: sepList ts := h
      rcases List.mem_cons.mp h' with rfl | h'
      · exact Or.inl (List.mem_cons_self _ _)
      · rcases mem_sepList h' with h' | h'
        · exact Or.inl (List.mem_cons_of_mem _ h')
        · exact Or.inr h'

theorem mem_specToks_shape (mkE mkR mkA : String → Inline) :
    ∀ (n : Nat) (ops : List (DiffOp String)), ops.length ≤ n →
      ∀ x ∈ specToks mkE mkR mkA ops,
        (∃ s, x = mkE s) ∨ (∃ s, x = mkR s) ∨ (∃ s, x = mkA s) := by
  intro n
  induction n with
  | zero =>
      intro ops h x hx
      obtain rfl : ops = [] := List.length_eq_zero.mp (by omega)
      simp [specToks] at hx
  | succ n ih =>
      intro ops hlen x hx
      cases ops with
      | nil => simp [specToks] at hx
      | cons op rest =>
          cases op with
          | equal w =>
              simp only [specToks, List.mem_cons] at hx
              rcases hx with rfl | hx
              · exact Or.inl ⟨w, rfl⟩
              · exact ih rest (by simpa using hlen) x hx
          | remove w =>
              simp only [specToks, List.mem_cons] at hx
              rcases hx with rfl | hx
              · exact Or.inr (Or.inl ⟨_, rfl⟩)
              · exact ih (dropRemoves rest)
                  (by have := dropRemoves_length rest; simp at hlen; omega) x hx
          | add w =>
              simp only [specToks, List.mem_cons] at hx
              rcases hx with rfl | hx
              · exact Or.inr (Or.inr ⟨_, rfl⟩)
              · exact ih (dropAdds rest)
                  (by have := dropAdds_length rest; simp at hlen; omega) x hx

theorem specToks_map_equal (mkE mkR mkA : String → Inline) (ws : List String) :
    specToks mkE mkR mkA (ws.map DiffOp.equal) = ws.map mkE := by
  induction ws with
  | nil => simp [specToks]
  | cons w ws ih => simp [specToks, ih]

/-- C10: every node the word-level inline diff emits is a plain Text token,
a Strikethrough wrapping a single Text node, or a Strong wrapping a single
Text node — all input formatting structure (Emphasis, Code, Link, Image,
URLs) is discarded, even for Equal words; consequently, when the flattened
word streams agree, the output is the plain unformatted word list with zero
diff markers. -/
theorem diff_inlines_plain_shape :
    (∀ old new x, x ∈ diff_inlines old new →
      ((∃ s, x = Inline.text s) ∨ (∃ s, x = Inline.strikethrough [.text s]) ∨
        (∃ s, x = Inline.strong [.text s]))) ∧
    (∀ old new,
      split_whitespace (inline_text old) = split_whitespace (inline_text new) →
      diff_inlines old new =
          glue [] ((split_whitespace (inline_text new)).map Inline.text) ∧
        ∀ x ∈ diff_inlines old new, ∃ s, x = Inline.text s) := by
  have hchar : ∀ old new : List Inline, diff_inlines old new =
      glue []
        (specToks Inline.text (fun s => .strikethrough [.text s])
          (fun s => .strong [.text s])
          (diff_sequences (split_whitespace (inline_text old))
            (split_whitespace (inline_text new)))) := by
    intro old new
    unfold diff_inlines
    exact emitLoop_diff_eq _ _ _ _ _
  constructor
  · intro old new x hx
    rw [hchar] at hx
    rcases mem_glue_nil hx with hx | rfl
    · rcases mem_specToks_shape _ _ _ _ _ (le_refl _) x hx with ⟨s, rfl⟩ | ⟨s, rfl⟩ | ⟨s, rfl⟩
      · exact Or.inl ⟨s, rfl⟩
      · exact Or.inr (Or.inl ⟨s, rfl⟩)
      · exact Or.inr (Or.inr ⟨s, rfl⟩)
    · exact Or.inl ⟨" ", rfl⟩
  · intro old new h
    have heq : diff_inlines old new =
        glue [] ((split_whitespace (inline_text new)).map Inline.text) := by
      rw [hchar, h, diff_sequences_self, specToks_map_equal]
    refine ⟨heq, fun x hx => ?_⟩
    rw [heq] at hx
    rcases mem_glue_nil hx with hx | rfl
    · obtain ⟨s, -, rfl⟩ := List.mem_map.mp hx
      exact ⟨s, rfl⟩
    · exact ⟨" ", rfl⟩

/-- Witness for C10: an emphasised word and the same bare word flatten to the
same word stream, so the diff is the plain unformatted text. -/
theorem diff_inlines_plain_shape_witness :
    split_whitespace (inline_text [Inline.emphasis [.text "hi"]]) =
      split_whitespace (inline_text [Inline.text "hi"]) ∧
    diff_inlines [Inline.emphasis [.text "hi"]] [Inline.text "hi"] =
      glue [] ((split_whitespace (inline_text [Inline.text "hi"])).map Inline.text) := by
  have h : split_whitespace (inline_text [Inline.emphasis [.text "hi"]]) =
      split_whitespace (inline_text [Inline.text "hi"]) := by
    simp [inline_text, string_append_empty]
  exact ⟨h, (diff_inlines_plain_shape.2 _ _ h).1⟩


end Marq
